import Mathlib

/-!
# Left-leaning red-black tree (`red_black_tree.h`)

A shallow embedding of the container `red_black_tree<Key, Value>` and a
verification of its contract.

Modelling conventions.

* `Node K V` stands for `std::unique_ptr<Node>`: `Node.null` is `nullptr`,
  `Node.mk key val count color left right` is an owned node with its six
  fields.
* `Key` is any type with a total order; `key > k` is `k < key`.
* `int count` is a mathematical integer: the model covers executions in
  which no count reaches `INT_MAX` (signed overflow has no defined
  behaviour in the source language).
* Code that can stop the program returns `Except Fault`: a failed
  `assert` is `Fault.assertFailed`, a member access through `nullptr` is
  `Fault.nullDeref`.  Assertions are modelled as enabled.
* Loops that walk down the tree (`get`, `min`, `max`) are recursive
  functions on the node they are standing on.
-/

namespace RedBlackTree

/-- The private enumeration `Color`. -/
inductive Color where
  | RED
  | BLACK
deriving DecidableEq

/-- A `std::unique_ptr<Node>`: either `nullptr` or an owned node holding
`key`, `val`, `count`, `color`, `left`, `right`. -/
inductive Node (K V : Type) where
  | null : Node K V
  | mk (key : K) (val : V) (count : Int) (color : Color) (left right : Node K V) : Node K V
deriving DecidableEq

/-- The ways an execution can stop abnormally. -/
inductive Fault where
  | assertFailed
  | nullDeref
deriving DecidableEq

variable {K V : Type}

/-- The test `p == nullptr`. -/
def Node.isNull : Node K V → Bool
  | .null => true
  | .mk _ _ _ _ _ _ => false

/-- The member access `p->left`. -/
def Node.left : Node K V → Except Fault (Node K V)
  | .null => .error .nullDeref
  | .mk _ _ _ _ l _ => .ok l

/-- The member access `p->right`. -/
def Node.right : Node K V → Except Fault (Node K V)
  | .null => .error .nullDeref
  | .mk _ _ _ _ _ r => .ok r

/-- The helper `Node::isRed`: null links are black. -/
def Node.isRed : Node K V → Bool
  | .null => false
  | .mk _ _ _ color _ _ => decide (color = Color.RED)

/-- The static helper `red_black_tree::isRed`, which forwards to `Node::isRed`. -/
def isRed (node : Node K V) : Bool :=
  Node.isRed node

/-- The private `size(const Node*)`: 0 for `nullptr`, else the `count` field. -/
def sizeNode : Node K V → Int
  | .null => 0
  | .mk _ _ count _ _ _ => count

/-- The rotation `rotateLeft(h)`: asserts that `h->right` is red, then promotes it. -/
def rotateLeft : Node K V → Except Fault (Node K V)
  | .null => .error .nullDeref
  | .mk hk hv _ hcolor hl hr =>
    if !isRed hr then .error .assertFailed
    else
      match hr with
      | .null => .error .nullDeref
      | .mk xk xv _ _ xl xr =>
        -- h->right = x->left; x->left = h; x->color = h->color; h->color = RED;
        -- h->count = 1 + size(h->left) + size(h->right)
        let h := Node.mk hk hv (1 + sizeNode hl + sizeNode xl) Color.RED hl xl
        -- x->count = 1 + size(x->left) + size(x->right)
        .ok (Node.mk xk xv (1 + sizeNode h + sizeNode xr) hcolor h xr)

/-- The rotation `rotateRight(h)`: asserts that `h->left` is red, then promotes it. -/
def rotateRight : Node K V → Except Fault (Node K V)
  | .null => .error .nullDeref
  | .mk hk hv _ hcolor hl hr =>
    if !isRed hl then .error .assertFailed
    else
      match hl with
      | .null => .error .nullDeref
      | .mk xk xv _ _ xl xr =>
        -- h->left = x->right; x->right = h; x->color = h->color; h->color = RED;
        -- h->count = 1 + size(h->left) + size(h->right)
        let h := Node.mk hk hv (1 + sizeNode xr + sizeNode hr) Color.RED xr hr
        -- x->count = 1 + size(x->left) + size(x->right)
        .ok (Node.mk xk xv (1 + sizeNode xl + sizeNode h) hcolor xl h)

/-- The recolouring `flipColors(h)`: three assertions, then `h` becomes red and both
children black. -/
def flipColors : Node K V → Except Fault (Node K V)
  | .null => .error .nullDeref
  | .mk k v c color l r =>
    if isRed (Node.mk k v c color l r) then .error .assertFailed
    else if !isRed l then .error .assertFailed
    else if !isRed r then .error .assertFailed
    else
      match l, r with
      | .mk lk lv lc _ ll lr, .mk rk rv rc _ rl rr =>
        .ok (Node.mk k v c Color.RED
              (Node.mk lk lv lc Color.BLACK ll lr) (Node.mk rk rv rc Color.BLACK rl rr))
      | _, _ => .error .nullDeref

/-- The assignment `node->count = 1 + size(node->left) + size(node->right)`. -/
def updateCount : Node K V → Except Fault (Node K V)
  | .null => .error .nullDeref
  | .mk k v _ color l r => .ok (Node.mk k v (1 + sizeNode l + sizeNode r) color l r)

section Ordered

variable [LinearOrder K]

/-- The private recursive `put(node, key, val)`. -/
def putNode (node : Node K V) (key : K) (val : V) : Except Fault (Node K V) :=
  match node with
  | .null => .ok (Node.mk key val 1 Color.RED .null .null)
  | .mk k v c color l r => do
    let node ←
      if key < k then do
        -- go left
        let l' ← putNode l key val
        pure (Node.mk k v c color l' r)
      else if key > k then do
        -- go right
        let r' ← putNode r key val
        pure (Node.mk k v c color l r')
      else
        -- keys are equal
        pure (Node.mk k val c color l r)
    -- if (isRed(node->right) && !isRed(node->left)) node = rotateLeft(node);
    let c1 ← do
      let nr ← node.right
      if isRed nr then do
        let nl ← node.left
        pure (!isRed nl)
      else pure false
    let node ← if c1 then rotateLeft node else pure node
    -- if (isRed(node->left) && isRed(node->left->left)) node = rotateRight(node);
    let c2 ← do
      let nl ← node.left
      if isRed nl then do
        let nll ← nl.left
        pure (isRed nll)
      else pure false
    let node ← if c2 then rotateRight node else pure node
    -- if (isRed(node->left) && isRed(node->right)) flipColors(node);
    let c3 ← do
      let nl ← node.left
      if isRed nl then do
        let nr ← node.right
        pure (isRed nr)
      else pure false
    let node ← if c3 then flipColors node else pure node
    updateCount node

/-- The loop of `get`, standing on `node`. -/
def getLoop (key : K) : Node K V → Option V
  | .null => none
  | .mk k v _ _ l r =>
    if key < k then getLoop key l
    else if key > k then getLoop key r
    else some v

end Ordered

/-- The loop of `min`, standing on a node with the given key and left child. -/
def minLoop (key : K) : Node K V → K
  | .null => key
  | .mk k _ _ _ l _ => minLoop k l

/-- The loop of `max`, standing on a node with the given key and right child. -/
def maxLoop (key : K) : Node K V → K
  | .null => key
  | .mk k _ _ _ _ r => maxLoop k r

/-- The private `inorder(node, keys)`: appends the keys of `node` to `keys`. -/
def inorder : Node K V → List K → List K
  | .null, keys => keys
  | .mk k _ _ _ l r, keys => inorder r (inorder l keys ++ [k])

/-- The member `Node::print`, with the stream `ss` and the two indentation
strings as arguments, returning the stream contents.  `fmt` is the stream
insertion of a key. -/
def Node.print (fmt : K → String) : Node K V → String → String → String → Except Fault String
  | .null, _, _, _ => .error .nullDeref
  | .mk key _ _ _ left right, ss, pfx, childrenPfx => do
    let ss := ss ++ pfx ++ fmt key ++ "\n"
    let strRED := "(red)"
    let strBLK := "(blk)"
    let ss ←
      if !right.isNull then
        let newPfx :=
          if left.isNull then
            childrenPfx ++ "└r" ++ (if Node.isRed right then strRED else strBLK) ++ "── "
          else
            childrenPfx ++ "├r" ++ (if Node.isRed right then strRED else strBLK) ++ "── "
        let newChildrenPfx :=
          if left.isNull then childrenPfx ++ "     " else childrenPfx ++ "|     "
        Node.print fmt right ss newPfx newChildrenPfx
      else pure ss
    if !left.isNull then
      Node.print fmt left ss
        (childrenPfx ++ "└l" ++ (if Node.isRed left then strRED else strBLK) ++ "── ")
        (childrenPfx ++ "     ")
    else pure ss

/-- The member `Node::toString()`. -/
def Node.toString (fmt : K → String) (node : Node K V) : Except Fault String :=
  Node.print fmt node "" "" ""

end RedBlackTree

/-- The class `red_black_tree<Key, Value>`: its only data member is `root`. -/
structure red_black_tree (K V : Type) where
  root : RedBlackTree.Node K V

namespace red_black_tree

open RedBlackTree

variable {K V : Type}

/-- A default-constructed tree: `root` is `nullptr`. -/
def empty : red_black_tree K V :=
  ⟨Node.null⟩

/-- The public `get(key)`. -/
def get [LinearOrder K] (t : red_black_tree K V) (key : K) : Option V :=
  getLoop key t.root

/-- The public `put(key, val)`: inserts below the root, then blackens the root. -/
def put [LinearOrder K] (t : red_black_tree K V) (key : K) (val : V) :
    Except Fault (red_black_tree K V) := do
  let root ← putNode t.root key val
  match root with
  | .null => .error .nullDeref
  | .mk k v c _ l r => pure ⟨Node.mk k v c Color.BLACK l r⟩

/-- The public `min()`. -/
def min (t : red_black_tree K V) : Option K :=
  match t.root with
  | .null => none
  | .mk k _ _ _ l _ => some (minLoop k l)

/-- The public `max()`. -/
def max (t : red_black_tree K V) : Option K :=
  match t.root with
  | .null => none
  | .mk k _ _ _ _ r => some (maxLoop k r)

/-- The public `size()`. -/
def size (t : red_black_tree K V) : Int :=
  sizeNode t.root

/-- The public `keys()`. -/
def keys (t : red_black_tree K V) : List K :=
  inorder t.root []

/-- The public `toString()`. -/
def toString (fmt : K → String) (t : red_black_tree K V) : Except Fault String :=
  if !t.root.isNull then Node.toString fmt t.root else .ok ""

/-- A sequence of `put` calls applied, in order, to a tree. -/
def putList [LinearOrder K] (t : red_black_tree K V) (ops : List (K × V)) :
    Except Fault (red_black_tree K V) :=
  ops.foldlM (fun t p => t.put p.1 p.2) t

/-- A sequence of `put` calls applied, in order, to the empty tree. -/
def putAll [LinearOrder K] (ops : List (K × V)) : Except Fault (red_black_tree K V) :=
  putList empty ops

end red_black_tree

/-! ## Specification-side definitions -/

namespace RedBlackTree

variable {K V : Type}

/-- The fix-up block at the end of the private `put`, as a function of the
node it starts from: the three guarded repairs, then the count update. -/
def fixUp (node : Node K V) : Except Fault (Node K V) := do
  let c1 ← do
    let nr ← node.right
    if isRed nr then do
      let nl ← node.left
      pure (!isRed nl)
    else pure false
  let node ← if c1 then rotateLeft node else pure node
  let c2 ← do
    let nl ← node.left
    if isRed nl then do
      let nll ← nl.left
      pure (isRed nll)
    else pure false
  let node ← if c2 then rotateRight node else pure node
  let c3 ← do
    let nl ← node.left
    if isRed nl then do
      let nr ← node.right
      pure (isRed nr)
    else pure false
  let node ← if c3 then flipColors node else pure node
  updateCount node

/-- Number of black nodes on the leftmost path from a node down to `nullptr`. -/
def bh : Node K V → Nat
  | .null => 0
  | .mk _ _ _ color l _ => bh l + (if color = Color.BLACK then 1 else 0)

/-- The left-leaning red-black shape of a subtree: no red right child, a red
node has no red left child, and both subtrees of every node have the same
black height. -/
def LLRB : Node K V → Prop
  | .null => True
  | .mk _ _ _ color l r =>
    isRed r = false ∧ (color = Color.RED → isRed l = false) ∧ bh l = bh r ∧ LLRB l ∧ LLRB r

/-- The shape a red subtree may be left in by an insertion: as `LLRB`, except
that the red root may have a red left child. -/
def Almost : Node K V → Prop
  | .null => False
  | .mk _ _ _ color l r =>
    color = Color.RED ∧ isRed r = false ∧ bh l = bh r ∧ LLRB l ∧ LLRB r

/-- The key-value pairs of a subtree in in-order (left, self, right). -/
def toList : Node K V → List (K × V)
  | .null => []
  | .mk k v _ _ l r => toList l ++ (k, v) :: toList r

/-- Every `count` field is one more than the sizes of the two children. -/
def CountOK : Node K V → Prop
  | .null => True
  | .mk _ _ c _ l r => c = 1 + sizeNode l + sizeNode r ∧ CountOK l ∧ CountOK r

/-- Binary-search-tree order: at every node, all keys on the left are smaller
and all keys on the right are larger than the node's key. -/
def isBST [LT K] : Node K V → Prop
  | .null => True
  | .mk k _ _ _ l r =>
    (∀ p ∈ toList l, p.1 < k) ∧ (∀ p ∈ toList r, k < p.1) ∧ isBST l ∧ isBST r

/-- Insertion into an association list as the descent of `put` performs it:
walk past smaller keys, then insert before a larger key or overwrite the
value of an equal one. -/
def upsert [LT K] [DecidableRel (fun a b : K => a < b)] :
    List (K × V) → K → V → List (K × V)
  | [], key, val => [(key, val)]
  | (k, v) :: rest, key, val =>
    if key < k then (key, val) :: (k, v) :: rest
    else if k < key then (k, v) :: upsert rest key val
    else (k, val) :: rest

/-- The value bound to the first entry of an association list with the given key. -/
def assocGet [DecidableEq K] (L : List (K × V)) (key : K) : Option V :=
  (L.find? (fun p => decide (p.1 = key))).map Prod.snd

end RedBlackTree

namespace red_black_tree

open RedBlackTree

variable {K V : Type}

/-- The state every public `put` leaves the tree in: black root, left-leaning
red-black shape, search-tree order, consistent counts. -/
def Good [LT K] (t : red_black_tree K V) : Prop :=
  isRed t.root = false ∧ LLRB t.root ∧ isBST t.root ∧ CountOK t.root

/-- The association list a sequence of `put` calls builds, call by call. -/
def model [LT K] [DecidableRel (fun a b : K => a < b)] (ops : List (K × V)) : List (K × V) :=
  ops.foldl (fun L p => upsert L p.1 p.2) []

/-- The value of the last `put` in the sequence whose key equals `key`, if any. -/
def lastPut [DecidableEq K] (ops : List (K × V)) (key : K) : Option V :=
  (ops.reverse.find? (fun p => decide (p.1 = key))).map Prod.snd

end red_black_tree

namespace RedBlackTree

variable {K V : Type}

/-- For every path from a node down to an absent child, the number of black
nodes on it. -/
def blackCounts : Node K V → List Nat
  | .null => [0]
  | .mk _ _ _ color l r =>
    (blackCounts l ++ blackCounts r).map (fun n => n + (if color = Color.BLACK then 1 else 0))

/-- Every node of a subtree, each as the subtree it roots. -/
def subtrees : Node K V → List (Node K V)
  | .null => []
  | .mk k v c color l r => Node.mk k v c color l r :: (subtrees l ++ subtrees r)

end RedBlackTree

namespace RedBlackTree

variable {K V : Type}

/-- Number of nodes on the longest path from a node down to an absent child
(0 for `nullptr`). -/
def height : Node K V → Nat
  | .null => 0
  | .mk _ _ _ _ l r => Nat.max (height l) (height r) + 1

/-- Number of nodes of a subtree. -/
def numNodes : Node K V → Nat
  | .null => 0
  | .mk _ _ _ _ l r => 1 + numNodes l + numNodes r

end RedBlackTree

namespace RedBlackTree

variable {K V : Type}

/-- The subtree with the value replaced at the node the search for `key` ends
at (unchanged if the search ends at `nullptr`). -/
def setVal [LT K] [DecidableRel (fun a b : K => a < b)] : Node K V → K → V → Node K V
  | .null, _, _ => .null
  | .mk k v c color l r, key, val =>
    if key < k then Node.mk k v c color (setVal l key val) r
    else if k < key then Node.mk k v c color l (setVal r key val)
    else Node.mk k val c color l r

/-- The subtree with every value forgotten: its shape, keys, colours and
counts. -/
def eraseVal : Node K V → Node K Unit
  | .null => .null
  | .mk k _ c color l r => Node.mk k () c color (eraseVal l) (eraseVal r)

/-- The keys of a subtree in the order node, right subtree, left subtree. -/
def preorderRL : Node K V → List K
  | .null => []
  | .mk k _ _ _ l r => k :: (preorderRL r ++ preorderRL l)

/-- The lines `Node::print` writes for a subtree, top to bottom, each as the
text in front of the key and the key. -/
def printLines : Node K V → String → String → List (String × K)
  | .null, _, _ => []
  | .mk key _ _ _ left right, pfx, childrenPfx =>
    (pfx, key) ::
      (printLines right
          (if left.isNull then
            childrenPfx ++ "└r" ++ (if Node.isRed right then "(red)" else "(blk)") ++ "── "
          else
            childrenPfx ++ "├r" ++ (if Node.isRed right then "(red)" else "(blk)") ++ "── ")
          (if left.isNull then childrenPfx ++ "     " else childrenPfx ++ "|     ")
        ++ printLines left
          (childrenPfx ++ "└l" ++ (if Node.isRed left then "(red)" else "(blk)") ++ "── ")
          (childrenPfx ++ "     "))

/-- The text of a list of lines: each is its front text, its key and a newline. -/
def renderLines (fmt : K → String) : List (String × K) → String
  | [] => ""
  | (p, k) :: rest => p ++ fmt k ++ "\n" ++ renderLines fmt rest

/-- The text `ss << key` writes for an `int` key: its decimal digits, after a
minus sign if it is negative. -/
def intText (k : Int) : String :=
  Int.repr k

/-- Whether every `└` of a text is followed by a character other than `r`. -/
def noLoneRightMark : List Char → Bool
  | [] => true
  | c :: rest =>
    (c != '└' || (rest.head? != none && rest.head? != some 'r')) && noLoneRightMark rest

end RedBlackTree

/-! ## The fix-up block -/

namespace RedBlackTree
variable {K V : Type}

theorem fixUp_black (k : K) (v : V) (c : Int) (l r : Node K V)
    (hr : LLRB r) (hb : bh l = bh r) (hl : LLRB l ∨ (Almost l ∧ isRed r = false)) :
    ∃ n, fixUp (Node.mk k v c Color.BLACK l r) = .ok n ∧ LLRB n ∧ bh n = bh l + 1 := by
  rcases l with _ | ⟨lk, lv, lc, _ | _, _ | ⟨llk, llv, llc, _ | _, lll, llr⟩, lr⟩ <;>
  rcases r with _ | ⟨rk, rv, rc, _ | _, rl, rr⟩ <;>
  simp_all [fixUp, Node.left, Node.right, isRed, Node.isRed, rotateLeft, rotateRight,
    flipColors, updateCount, LLRB, Almost, bh, bind, Except.bind, pure, Except.pure] <;>
  (try omega)

theorem fixUp_red (k : K) (v : V) (c : Int) (l r : Node K V)
    (hl : LLRB l) (hr : LLRB r) (hb : bh l = bh r) (hc : isRed l = false ∨ isRed r = false) :
    ∃ n, fixUp (Node.mk k v c Color.RED l r) = .ok n ∧ Almost n ∧ bh n = bh l := by
  rcases l with _ | ⟨lk, lv, lc, _ | _, _ | ⟨llk, llv, llc, _ | _, lll, llr⟩, lr⟩ <;>
  rcases r with _ | ⟨rk, rv, rc, _ | _, rl, rr⟩ <;>
  simp_all [fixUp, Node.left, Node.right, isRed, Node.isRed, rotateLeft, rotateRight,
    flipColors, updateCount, LLRB, Almost, bh, bind, Except.bind, pure, Except.pure] <;>
  (try omega)

set_option maxHeartbeats 4000000 in
theorem fixUp_toList_aux (k : K) (v : V) (c : Int) (color : Color) (l r : Node K V) :
    match fixUp (Node.mk k v c color l r) with
    | .ok n => toList n = toList l ++ (k, v) :: toList r
    | .error _ => True := by
  rcases l with _ | ⟨lk, lv, lc, _ | _, _ | ⟨llk, llv, llc, _ | _, lll, llr⟩, lr⟩ <;>
  rcases r with _ | ⟨rk, rv, rc, _ | _, rl, _ | ⟨rrk, rrv, rrc, _ | _, rrl, rrr⟩⟩ <;>
  rcases color with _ | _ <;>
  simp [fixUp, Node.left, Node.right, isRed, Node.isRed, rotateLeft, rotateRight,
    flipColors, updateCount, toList, bind, Except.bind, pure, Except.pure]

theorem fixUp_toList (k : K) (v : V) (c : Int) (color : Color) (l r n : Node K V)
    (h : fixUp (Node.mk k v c color l r) = .ok n) :
    toList n = toList l ++ (k, v) :: toList r := by
  have := fixUp_toList_aux k v c color l r
  rw [h] at this
  exact this

set_option maxHeartbeats 4000000 in
theorem fixUp_count_aux (k : K) (v : V) (c : Int) (color : Color) (l r : Node K V)
    (hl : CountOK l) (hr : CountOK r) :
    match fixUp (Node.mk k v c color l r) with
    | .ok n => CountOK n ∧ sizeNode n = 1 + sizeNode l + sizeNode r
    | .error _ => True := by
  rcases l with _ | ⟨lk, lv, lc, _ | _, _ | ⟨llk, llv, llc, _ | _, lll, llr⟩, lr⟩ <;>
  rcases r with _ | ⟨rk, rv, rc, _ | _, rl, _ | ⟨rrk, rrv, rrc, _ | _, rrl, rrr⟩⟩ <;>
  rcases color with _ | _ <;>
  simp_all [fixUp, Node.left, Node.right, isRed, Node.isRed, rotateLeft, rotateRight,
    flipColors, updateCount, CountOK, sizeNode, bind, Except.bind, pure, Except.pure] <;>
  (try omega)

theorem fixUp_count (k : K) (v : V) (c : Int) (color : Color) (l r n : Node K V)
    (h : fixUp (Node.mk k v c color l r) = .ok n) (hl : CountOK l) (hr : CountOK r) :
    CountOK n ∧ sizeNode n = 1 + sizeNode l + sizeNode r := by
  have := fixUp_count_aux k v c color l r hl hr
  rw [h] at this
  exact this

/-- The fix-up block on a node whose subtrees are well-shaped: it returns, and
the result is well-shaped for the colour of the node it started from. -/
theorem fixUp_spec (k : K) (v : V) (c : Int) (color : Color) (l r : Node K V)
    (hr : LLRB r) (hb : bh l = bh r)
    (hblack : color = Color.BLACK → LLRB l ∨ (Almost l ∧ isRed r = false))
    (hred : color = Color.RED → LLRB l ∧ (isRed l = false ∨ isRed r = false))
    (hcl : CountOK l) (hcr : CountOK r) :
    ∃ n, fixUp (Node.mk k v c color l r) = .ok n ∧ bh n = bh (Node.mk k v c color l r) ∧
      (if isRed (Node.mk k v c color l r) then Almost n else LLRB n) ∧
      toList n = toList l ++ (k, v) :: toList r ∧ CountOK n := by
  cases color with
  | RED =>
    obtain ⟨hl, hc⟩ := hred rfl
    obtain ⟨n, hn, hs, hbn⟩ := fixUp_red k v c l r hl hr hb hc
    refine ⟨n, hn, ?_, ?_, fixUp_toList _ _ _ _ _ _ _ hn, (fixUp_count _ _ _ _ _ _ _ hn hcl hcr).1⟩
    · simp [bh, hbn]
    · simpa [isRed, Node.isRed] using hs
  | BLACK =>
    obtain ⟨n, hn, hs, hbn⟩ := fixUp_black k v c l r hr hb (hblack rfl)
    refine ⟨n, hn, ?_, ?_, fixUp_toList _ _ _ _ _ _ _ hn, (fixUp_count _ _ _ _ _ _ _ hn hcl hcr).1⟩
    · simp [bh, hbn]
    · simpa [isRed, Node.isRed] using hs

section Ordered
variable [LinearOrder K]

theorem putNode_lt (k : K) (v : V) (c : Int) (color : Color) (l r : Node K V)
    (key : K) (val : V) (h : key < k) :
    putNode (Node.mk k v c color l r) key val
      = (putNode l key val) >>= fun l' => fixUp (Node.mk k v c color l' r) := by
  rw [putNode]
  simp only [h, if_true, fixUp, bind_assoc, pure_bind]

theorem putNode_gt (k : K) (v : V) (c : Int) (color : Color) (l r : Node K V)
    (key : K) (val : V) (h : k < key) :
    putNode (Node.mk k v c color l r) key val
      = (putNode r key val) >>= fun r' => fixUp (Node.mk k v c color l r') := by
  rw [putNode]
  simp only [not_lt_of_gt h, gt_iff_lt, h, if_true, if_false, fixUp, bind_assoc, pure_bind]

theorem putNode_eq (k : K) (v : V) (c : Int) (color : Color) (l r : Node K V)
    (key : K) (val : V) (h1 : ¬ key < k) (h2 : ¬ k < key) :
    putNode (Node.mk k v c color l r) key val = fixUp (Node.mk k val c color l r) := by
  rw [putNode]
  simp only [h1, h2, gt_iff_lt, if_false, fixUp, bind_assoc, pure_bind]

theorem upsert_append_lt (L R : List (K × V)) (k : K) (v : V) (key : K) (val : V)
    (h : key < k) :
    upsert (L ++ (k, v) :: R) key val = upsert L key val ++ (k, v) :: R := by
  induction L with
  | nil => simp [upsert, h]
  | cons p L ih =>
    obtain ⟨a, b⟩ := p
    by_cases h1 : key < a
    · simp [upsert, h1]
    · by_cases h2 : a < key
      · simp [upsert, h1, h2, ih]
      · simp [upsert, h1, h2]

theorem upsert_append_gt (L R : List (K × V)) (k : K) (v : V) (key : K) (val : V)
    (hL : ∀ p ∈ L, p.1 < k) (h : k < key) :
    upsert (L ++ (k, v) :: R) key val = L ++ (k, v) :: upsert R key val := by
  induction L with
  | nil => simp [upsert, h, not_lt_of_gt h]
  | cons p L ih =>
    obtain ⟨a, b⟩ := p
    have ha : a < key := lt_trans (hL (a, b) (by simp)) h
    have ih2 := ih (fun p hp => hL p (by simp [hp]))
    simp [upsert, ha, not_lt_of_gt ha, ih2]

theorem upsert_append_eq (L R : List (K × V)) (k : K) (v : V) (key : K) (val : V)
    (hL : ∀ p ∈ L, p.1 < k) (h1 : ¬ key < k) (h2 : ¬ k < key) :
    upsert (L ++ (k, v) :: R) key val = L ++ (k, val) :: R := by
  induction L with
  | nil => simp [upsert, h1, h2]
  | cons p L ih =>
    obtain ⟨a, b⟩ := p
    have hk : key = k := le_antisymm (not_lt.mp h2) (not_lt.mp h1)
    have ha : a < key := hk ▸ hL (a, b) (by simp)
    have ih2 := ih (fun p hp => hL p (by simp [hp]))
    simp [upsert, ha, not_lt_of_gt ha, ih2]

/-- The private `put` on a well-shaped subtree: it returns, the result has the
same black height, is well-shaped up to a red root with a red left child, and
holds the association list of the descent. -/
theorem putNode_spec (key : K) (val : V) (t : Node K V) :
    LLRB t → isBST t → CountOK t →
    ∃ n, putNode t key val = .ok n ∧ bh n = bh t ∧
      (if isRed t then Almost n else LLRB n) ∧
      toList n = upsert (toList t) key val ∧ CountOK n := by
  induction t with
  | null =>
    intro _ _ _
    refine ⟨_, rfl, ?_⟩
    simp [bh, isRed, Node.isRed, LLRB, toList, upsert, CountOK, sizeNode]
  | mk k v c color l r ihl ihr =>
    intro hs hb hc
    obtain ⟨hrr, hcl, hbh, hsl, hsr⟩ := hs
    obtain ⟨hbl, hbr, hbstl, hbstr⟩ := hb
    obtain ⟨_, hcl1, hcr1⟩ := hc
    by_cases h1 : key < k
    · obtain ⟨l1, hl1, hbh1, hshape1, hlist1, hcount1⟩ := ihl hsl hbstl hcl1
      have hfix := fixUp_spec k v c color l1 r hsr (hbh1.trans hbh)
        (fun _ => by
          by_cases hred : isRed l = true
          · rw [if_pos hred] at hshape1; exact Or.inr ⟨hshape1, hrr⟩
          · rw [if_neg hred] at hshape1; exact Or.inl hshape1)
        (fun hc => by
          have hlr := hcl hc
          rw [hlr] at hshape1
          exact ⟨hshape1, Or.inr hrr⟩)
        hcount1 hcr1
      obtain ⟨n, hn, hbn, hsn, hln, hcn⟩ := hfix
      refine ⟨n, ?_, ?_, ?_, ?_, hcn⟩
      · rw [putNode_lt _ _ _ _ _ _ _ _ h1, hl1]; exact hn
      · rw [hbn]; simp [bh, hbh1]
      · simpa [isRed, Node.isRed] using hsn
      · rw [hln, hlist1, toList, upsert_append_lt _ _ _ _ _ _ h1]
    · by_cases h2 : k < key
      · obtain ⟨r1, hr1, hbh1, hshape1, hlist1, hcount1⟩ := ihr hsr hbstr hcr1
        rw [hrr] at hshape1
        have hfix := fixUp_spec k v c color l r1 hshape1 (hbh.trans hbh1.symm)
          (fun _ => Or.inl hsl) (fun hc => ⟨hsl, Or.inl (hcl hc)⟩) hcl1 hcount1
        obtain ⟨n, hn, hbn, hsn, hln, hcn⟩ := hfix
        refine ⟨n, ?_, ?_, ?_, ?_, hcn⟩
        · rw [putNode_gt _ _ _ _ _ _ _ _ h2, hr1]; exact hn
        · rw [hbn]; simp [bh]
        · simpa [isRed, Node.isRed] using hsn
        · rw [hln, hlist1, toList, upsert_append_gt _ _ _ _ _ _ hbl h2]
      · have hfix := fixUp_spec k val c color l r hsr hbh
          (fun _ => Or.inl hsl) (fun hc => ⟨hsl, Or.inr hrr⟩) hcl1 hcr1
        obtain ⟨n, hn, hbn, hsn, hln, hcn⟩ := hfix
        refine ⟨n, ?_, ?_, ?_, ?_, hcn⟩
        · rw [putNode_eq _ _ _ _ _ _ _ _ h1 h2]; exact hn
        · rw [hbn]; simp [bh]
        · simpa [isRed, Node.isRed] using hsn
        · rw [hln, toList, upsert_append_eq _ _ _ _ _ _ hbl h1 h2]

end Ordered
end RedBlackTree

/-! ## The association-list view -/

namespace RedBlackTree
variable {K V : Type}

theorem inorder_eq (t : Node K V) (acc : List K) :
    inorder t acc = acc ++ (toList t).map Prod.fst := by
  induction t generalizing acc with
  | null => simp [inorder, toList]
  | mk k v c color l r ihl ihr => simp [inorder, toList, ihl, ihr]

section Ordered
variable [LinearOrder K]

theorem isBST_iff_pairwise (t : Node K V) :
    isBST t ↔ (toList t).Pairwise (fun p q => p.1 < q.1) := by
  induction t with
  | null => simp [isBST, toList]
  | mk k v c color l r ihl ihr =>
    simp only [isBST, toList, List.pairwise_append, List.pairwise_cons, ihl, ihr]
    constructor
    · rintro ⟨h1, h2, h3, h4⟩
      refine ⟨h3, ⟨h2, h4⟩, ?_⟩
      intro a ha b hb
      rcases List.mem_cons.mp hb with rfl | hb
      · exact h1 a ha
      · exact lt_trans (h1 a ha) (h2 b hb)
    · rintro ⟨h3, ⟨h2, h4⟩, h5⟩
      exact ⟨fun a ha => h5 a ha _ (List.mem_cons_self _ _), h2, h3, h4⟩

theorem mem_upsert (L : List (K × V)) (key : K) (val : V) (p : K × V)
    (hp : p ∈ upsert L key val) : p.1 = key ∨ p ∈ L := by
  induction L with
  | nil => simp [upsert] at hp; simp [hp]
  | cons q L ih =>
    obtain ⟨a, b⟩ := q
    by_cases h1 : key < a
    · simp only [upsert, h1, if_true, List.mem_cons] at hp
      rcases hp with rfl | hp
      · exact Or.inl rfl
      · exact Or.inr (List.mem_cons.mpr hp)
    · by_cases h2 : a < key
      · simp only [upsert, h1, h2, if_true, if_false, List.mem_cons] at hp
        rcases hp with rfl | hp
        · exact Or.inr (List.mem_cons_self _ _)
        · rcases ih hp with h | h
          · exact Or.inl h
          · exact Or.inr (List.mem_cons_of_mem _ h)
      · simp only [upsert, h1, h2, if_false, List.mem_cons] at hp
        rcases hp with rfl | hp
        · exact Or.inl (le_antisymm (not_lt.mp h1) (not_lt.mp h2))
        · exact Or.inr (List.mem_cons_of_mem _ hp)

theorem upsert_pairwise (L : List (K × V)) (key : K) (val : V)
    (h : L.Pairwise (fun p q => p.1 < q.1)) :
    (upsert L key val).Pairwise (fun p q => p.1 < q.1) := by
  induction L with
  | nil => simp [upsert]
  | cons q L ih =>
    obtain ⟨a, b⟩ := q
    rw [List.pairwise_cons] at h
    obtain ⟨ha, hL⟩ := h
    by_cases h1 : key < a
    · simp only [upsert, h1, if_true, List.pairwise_cons]
      refine ⟨?_, ha, hL⟩
      intro p hp
      rcases List.mem_cons.mp hp with rfl | hp
      · exact h1
      · exact lt_trans h1 (ha p hp)
    · by_cases h2 : a < key
      · simp only [upsert, h1, h2, if_true, if_false, List.pairwise_cons]
        refine ⟨?_, ih hL⟩
        intro p hp
        rcases mem_upsert L key val p hp with h | h
        · rw [h]; exact h2
        · exact ha p h
      · simp only [upsert, h1, h2, if_false, List.pairwise_cons]
        exact ⟨ha, hL⟩

theorem keys_upsert (L : List (K × V)) (key : K) (val : V) (x : K) :
    x ∈ (upsert L key val).map Prod.fst ↔ x = key ∨ x ∈ L.map Prod.fst := by
  induction L with
  | nil => simp [upsert]
  | cons q L ih =>
    obtain ⟨a, b⟩ := q
    by_cases h1 : key < a
    · simp [upsert, h1]
    · by_cases h2 : a < key
      · simp only [upsert, h1, h2, if_true, if_false, List.map_cons, List.mem_cons, ih]
        tauto
      · have hk : key = a := le_antisymm (not_lt.mp h2) (not_lt.mp h1)
        simp [upsert, hk]

theorem assocGet_upsert (L : List (K × V)) (key : K) (val : V) (q : K) :
    assocGet (upsert L key val) q = if q = key then some val else assocGet L q := by
  induction L with
  | nil =>
    by_cases h : q = key
    · simp [upsert, assocGet, h]
    · have h3 : ¬ key = q := fun e => h e.symm
      simp [upsert, assocGet, h, h3]
  | cons p L ih =>
    obtain ⟨a, b⟩ := p
    by_cases h1 : key < a
    · by_cases h : q = key
      · simp [upsert, assocGet, h1, h]
      · have h3 : ¬ key = q := fun e => h e.symm
        simp [upsert, assocGet, h1, h, h3, List.find?_cons]
    · by_cases h2 : a < key
      · have hak : ¬ a = key := ne_of_lt h2
        by_cases h : q = key
        · subst h
          have := ih
          simp only [if_true] at this
          simp only [assocGet] at this
          simp [upsert, assocGet, h1, h2, hak, List.find?_cons, this]
        · have := ih
          simp only [h, if_false, assocGet] at this
          simp only [upsert, h1, h2, if_true, if_false, assocGet, List.find?_cons, h]
          by_cases haq : a = q
          · simp [haq]
          · simp [haq, this]
      · have hk : key = a := le_antisymm (not_lt.mp h2) (not_lt.mp h1)
        subst hk
        by_cases h : q = key
        · simp [upsert, assocGet, h]
        · have h3 : ¬ key = q := fun e => h e.symm
          simp [upsert, assocGet, h, h3, List.find?_cons]

theorem getLoop_eq_assocGet (key : K) (t : Node K V) (h : isBST t) :
    getLoop key t = assocGet (toList t) key := by
  induction t with
  | null => simp [getLoop, toList, assocGet]
  | mk k v c color l r ihl ihr =>
    obtain ⟨hl, hr, hbl, hbr⟩ := h
    have hnl : key ≤ k → List.find? (fun p => decide (p.1 = key)) (toList r) = none := by
      intro hk
      rw [List.find?_eq_none]
      intro p hp
      have := hr p hp
      simp
      exact ne_of_gt (lt_of_le_of_lt hk this)
    have hnr : k ≤ key → List.find? (fun p => decide (p.1 = key)) (toList l) = none := by
      intro hk
      rw [List.find?_eq_none]
      intro p hp
      have := hl p hp
      simp
      exact ne_of_lt (lt_of_lt_of_le this hk)
    by_cases h1 : key < k
    · have hne : ¬ k = key := ne_of_gt h1
      simp only [getLoop, h1, if_true, ihl hbl, assocGet, toList, List.find?_append,
        List.find?_cons, hnl (le_of_lt h1)]
      simp [hne]
    · by_cases h2 : k < key
      · have hne : ¬ k = key := ne_of_lt h2
        simp only [getLoop, h1, h2, gt_iff_lt, if_true, if_false, ihr hbr, assocGet, toList,
          List.find?_append, List.find?_cons, hnr (le_of_lt h2)]
        simp [hne]
      · have hk : k = key := le_antisymm (not_lt.mp h1) (not_lt.mp h2)
        simp only [getLoop, h1, h2, gt_iff_lt, if_false, assocGet, toList,
          List.find?_append, List.find?_cons, hnr (le_of_eq hk)]
        simp [hk]

end Ordered
end RedBlackTree

/-! ## Further facts about lists and shapes -/

namespace RedBlackTree
variable {K V : Type}

theorem assocGet_isSome [DecidableEq K] (L : List (K × V)) (key : K) :
    (assocGet L key).isSome = true ↔ key ∈ L.map Prod.fst := by
  unfold assocGet
  rw [Option.isSome_map', List.find?_isSome, List.mem_map]
  constructor
  · rintro ⟨p, hp, h⟩
    exact ⟨p, hp, by simpa using h⟩
  · rintro ⟨p, hp, h⟩
    exact ⟨p, hp, by simpa using h⟩

section Ordered
variable [LinearOrder K]

theorem length_upsert_of_mem (L : List (K × V)) (key : K) (val : V)
    (hs : L.Pairwise (fun p q => p.1 < q.1)) (hm : key ∈ L.map Prod.fst) :
    (upsert L key val).length = L.length := by
  induction L with
  | nil => simp at hm
  | cons p L ih =>
    obtain ⟨a, b⟩ := p
    rw [List.pairwise_cons] at hs
    obtain ⟨ha, hL⟩ := hs
    simp only [List.map_cons, List.mem_cons] at hm
    by_cases h1 : key < a
    · exfalso
      rcases hm with rfl | hm
      · exact lt_irrefl _ h1
      · obtain ⟨q, hq, rfl⟩ := List.mem_map.mp hm
        exact lt_asymm h1 (ha q hq)
    · by_cases h2 : a < key
      · rcases hm with rfl | hm
        · exact absurd h2 (lt_irrefl _)
        · simp [upsert, h1, h2, ih hL hm]
      · simp [upsert, h1, h2]

end Ordered
end RedBlackTree

namespace RedBlackTree
variable {K V : Type}

theorem blackCounts_of_LLRB (t : Node K V) (h : LLRB t) : ∀ a ∈ blackCounts t, a = bh t := by
  induction t with
  | null => simp [blackCounts, bh]
  | mk k v c color l r ihl ihr =>
    obtain ⟨_, _, hb, hl, hr⟩ := h
    intro a ha
    simp only [blackCounts, List.mem_map, List.mem_append] at ha
    obtain ⟨b, hb2, rfl⟩ := ha
    rcases hb2 with hb2 | hb2
    · rw [ihl hl b hb2]; rfl
    · rw [ihr hr b hb2, ← hb]; rfl

theorem LLRB_of_mem_subtrees (t : Node K V) (h : LLRB t) : ∀ n ∈ subtrees t, LLRB n := by
  induction t with
  | null => simp [subtrees]
  | mk k v c color l r ihl ihr =>
    intro n hn
    simp only [subtrees, List.mem_cons, List.mem_append] at hn
    rcases hn with rfl | hn | hn
    · exact h
    · exact ihl h.2.2.2.1 n hn
    · exact ihr h.2.2.2.2 n hn

end RedBlackTree

/-! ## Whole-tree invariant -/

namespace RedBlackTree
variable {K V : Type}

theorem sizeNode_eq_length (t : Node K V) (h : CountOK t) :
    sizeNode t = ((toList t).length : Int) := by
  induction t with
  | null => simp [sizeNode, toList]
  | mk k v c color l r ihl ihr =>
    obtain ⟨hc, hl, hr⟩ := h
    show c = _
    rw [hc, ihl hl, ihr hr]
    simp only [toList, List.length_append, List.length_cons]
    push_cast
    ring

theorem minLoop_eq (k : K) (l : Node K V) (rest : List K) :
    ((toList l).map Prod.fst ++ k :: rest).head? = some (minLoop k l) := by
  induction l generalizing k rest with
  | null => simp [toList, minLoop]
  | mk k2 v c color l2 r2 ihl _ =>
    simp only [toList, minLoop, List.map_append, List.map_cons, List.append_assoc,
      List.cons_append]
    exact ihl k2 _

theorem maxLoop_eq (k : K) (r : Node K V) (init : List K) :
    (init ++ k :: (toList r).map Prod.fst).getLast? = some (maxLoop k r) := by
  induction r generalizing k init with
  | null => simp [toList, maxLoop]
  | mk k2 v c color l2 r2 _ ihr =>
    simp only [toList, maxLoop, List.map_append, List.map_cons]
    have := ihr k2 (init ++ k :: List.map Prod.fst (toList l2))
    simpa using this

end RedBlackTree

namespace red_black_tree
open RedBlackTree
variable {K V : Type}

theorem keys_eq (t : red_black_tree K V) : t.keys = (toList t.root).map Prod.fst := by
  simp [keys, inorder_eq]

theorem min_eq_head (t : red_black_tree K V) : t.min = t.keys.head? := by
  rw [keys_eq]
  obtain ⟨root⟩ := t
  cases root with
  | null => simp [min, toList]
  | mk k v c color l r =>
    simp only [min, toList, List.map_append, List.map_cons]
    exact (minLoop_eq k l _).symm

theorem max_eq_getLast (t : red_black_tree K V) : t.max = t.keys.getLast? := by
  rw [keys_eq]
  obtain ⟨root⟩ := t
  cases root with
  | null => simp [max, toList]
  | mk k v c color l r =>
    simp only [max, toList, List.map_append, List.map_cons]
    exact (maxLoop_eq k r _).symm

section Ordered
variable [LinearOrder K]

theorem upsert_ne_nil (L : List (K × V)) (key : K) (val : V) : upsert L key val ≠ [] := by
  cases L with
  | nil => simp [upsert]
  | cons p L =>
    obtain ⟨a, b⟩ := p
    simp only [upsert]
    split_ifs <;> simp

theorem good_empty : Good (empty : red_black_tree K V) := by
  simp [Good, empty, isRed, Node.isRed, LLRB, isBST, CountOK]

/-- One public `put` on a tree in the good state returns a non-empty tree in
the good state that holds the updated association list. -/
theorem put_spec (t : red_black_tree K V) (key : K) (val : V) (h : Good t) :
    ∃ t1, t.put key val = .ok t1 ∧ Good t1 ∧ t1.root.isNull = false ∧
      toList t1.root = upsert (toList t.root) key val := by
  obtain ⟨hred, hs, hb, hc⟩ := h
  obtain ⟨n, hn, _, hsn, hln, hcn⟩ := putNode_spec key val t.root hs hb hc
  rw [hred] at hsn
  have hbn : isBST n := by
    rw [isBST_iff_pairwise, hln]
    exact upsert_pairwise _ _ _ ((isBST_iff_pairwise _).mp hb)
  cases n with
  | null => exact absurd hln.symm (upsert_ne_nil _ _ _)
  | mk k v c color l r =>
    refine ⟨⟨Node.mk k v c Color.BLACK l r⟩, ?_, ?_, rfl, ?_⟩
    · simp [put, hn, bind, Except.bind, pure, Except.pure]
    · obtain ⟨h1, h2, h3, h4, h5⟩ := hsn
      exact ⟨by simp [isRed, Node.isRed], ⟨h1, by simp, h3, h4, h5⟩, hbn, hcn⟩
    · rw [← hln]; simp [toList]

theorem putList_spec (ops : List (K × V)) (t : red_black_tree K V) (h : Good t) :
    ∃ t1, putList t ops = .ok t1 ∧ Good t1 ∧
      toList t1.root = ops.foldl (fun L p => upsert L p.1 p.2) (toList t.root) := by
  induction ops generalizing t with
  | nil => exact ⟨t, rfl, h, rfl⟩
  | cons p ops ih =>
    obtain ⟨t1, ht1, hg1, _, hl1⟩ := put_spec t p.1 p.2 h
    obtain ⟨t2, ht2, hg2, hl2⟩ := ih t1 hg1
    refine ⟨t2, ?_, hg2, ?_⟩
    · simp only [putList, List.foldlM_cons, ht1]
      exact ht2
    · rw [hl2, hl1]; rfl

theorem putAll_spec (ops : List (K × V)) :
    ∃ t : red_black_tree K V, putAll ops = .ok t ∧ Good t ∧ toList t.root = model ops := by
  obtain ⟨t, ht, hg, hl⟩ := putList_spec ops (empty : red_black_tree K V) good_empty
  exact ⟨t, ht, hg, hl⟩

end Ordered
end red_black_tree

/-! ## Contract of the public operations -/

namespace red_black_tree
open RedBlackTree
variable {K V : Type}

section Ordered
variable [LinearOrder K]

theorem model_append (ops : List (K × V)) (p : K × V) :
    model (ops ++ [p]) = upsert (model ops) p.1 p.2 := by
  simp [model, List.foldl_append]

theorem lastPut_append (ops : List (K × V)) (p : K × V) (key : K) :
    lastPut (ops ++ [p]) key = if key = p.1 then some p.2 else lastPut ops key := by
  by_cases h : key = p.1
  · simp [lastPut, h]
  · have h2 : ¬ p.1 = key := fun e => h e.symm
    simp [lastPut, h, h2, List.find?_cons]

theorem assocGet_model (ops : List (K × V)) (key : K) :
    assocGet (model ops) key = lastPut ops key := by
  induction ops using List.reverseRecOn with
  | nil => simp [model, assocGet, lastPut]
  | append_singleton ops p ih =>
    rw [model_append, assocGet_upsert, lastPut_append, ih]

theorem keys_model (ops : List (K × V)) (x : K) :
    x ∈ (model ops).map Prod.fst ↔ ∃ p ∈ ops, p.1 = x := by
  induction ops using List.reverseRecOn with
  | nil => simp [model]
  | append_singleton ops p ih =>
    rw [model_append, keys_upsert, ih]
    constructor
    · rintro (h | ⟨q, hq, h⟩)
      · exact ⟨p, by simp, h.symm⟩
      · exact ⟨q, by simp [hq], h⟩
    · rintro ⟨q, hq, h⟩
      rcases List.mem_append.mp hq with hq | hq
      · exact Or.inr ⟨q, hq, h⟩
      · simp only [List.mem_singleton] at hq
        subst hq
        exact Or.inl h.symm

theorem lastPut_of_split (pre post : List (K × V)) (key : K) (val : V)
    (h : ∀ p ∈ post, p.1 ≠ key) : lastPut (pre ++ (key, val) :: post) key = some val := by
  have hn : List.find? (fun p : K × V => decide (p.1 = key)) post.reverse = none := by
    rw [List.find?_eq_none]
    intro p hp
    simpa using h p (List.mem_reverse.mp hp)
  simp [lastPut, List.find?_append, hn]

theorem lastPut_of_absent (ops : List (K × V)) (key : K)
    (h : ∀ p ∈ ops, p.1 ≠ key) : lastPut ops key = none := by
  have hn : List.find? (fun p : K × V => decide (p.1 = key)) ops.reverse = none := by
    rw [List.find?_eq_none]
    intro p hp
    simpa using h p (List.mem_reverse.mp hp)
  simp [lastPut, hn]

theorem good_keys_pairwise (t : red_black_tree K V) (h : Good t) :
    t.keys.Pairwise (fun a b => a < b) := by
  rw [keys_eq, List.pairwise_map]
  exact (isBST_iff_pairwise _).mp h.2.2.1

theorem good_get (t : red_black_tree K V) (h : Good t) (key : K) :
    t.get key = assocGet (toList t.root) key :=
  getLoop_eq_assocGet key t.root h.2.2.1

theorem good_size (t : red_black_tree K V) (h : Good t) :
    t.size = ((toList t.root).length : Int) :=
  sizeNode_eq_length t.root h.2.2.2

/-- C1: after any sequence of `put` calls on the empty tree, `get(k)` is the
value of the last `put` whose key is `k` (spelled out: if the sequence splits
as `pre ++ (k, v) :: post` with no `k` in `post`, the result is `v`), and is
absent when no `put` used `k`. -/
theorem C1_get_returns_last_put (ops : List (K × V)) (k : K) :
    ∃ t : red_black_tree K V, putAll ops = .ok t ∧
      t.get k = lastPut ops k ∧
      (∀ pre post v, ops = pre ++ (k, v) :: post → (∀ p ∈ post, p.1 ≠ k) → t.get k = some v) ∧
      ((∀ p ∈ ops, p.1 ≠ k) → t.get k = none) := by
  obtain ⟨t, ht, hg, hl⟩ := putAll_spec ops
  have hget : t.get k = lastPut ops k := by
    rw [good_get t hg, hl, assocGet_model]
  refine ⟨t, ht, hget, ?_, ?_⟩
  · intro pre post v hops hpost
    rw [hget, hops]
    exact lastPut_of_split pre post k v hpost
  · intro h
    rw [hget]
    exact lastPut_of_absent ops k h

/-- C2: after any sequence of `put` calls on the empty tree, `keys()` is
strictly ascending (each element is smaller than the next, and than every
later one), has no duplicates, and the tree is in search-tree order; for any
tree at all, search-tree order is the same as `keys()` being strictly
ascending. -/
theorem C2_keys_strictly_ascending (ops : List (K × V)) :
    (∃ t : red_black_tree K V, putAll ops = .ok t ∧
      t.keys.Chain' (fun a b => a < b) ∧ t.keys.Pairwise (fun a b => a < b) ∧
      t.keys.Nodup ∧ isBST t.root) ∧
    (∀ s : red_black_tree K V, isBST s.root ↔ s.keys.Chain' (fun a b => a < b)) := by
  constructor
  · obtain ⟨t, ht, hg, _⟩ := putAll_spec ops
    have hp := good_keys_pairwise t hg
    exact ⟨t, ht, List.chain'_iff_pairwise.mpr hp, hp,
      hp.imp (fun h => ne_of_lt h), hg.2.2.1⟩
  · intro s
    rw [List.chain'_iff_pairwise, keys_eq, List.pairwise_map]
    exact isBST_iff_pairwise s.root

/-- C3: after any sequence of `put` calls on the empty tree, a key occurs in
`keys()` exactly when some `put` of the sequence used it, and exactly when
`get` finds it.  On the keys 5, 3, 8, 1, 4, 7, 9 (any values): `keys()` is
1, 3, 4, 5, 7, 8, 9 and `get(6)` is absent. -/
theorem C3_keys_are_the_inserted_keys (ops : List (K × V)) (k : K) :
    (∃ t : red_black_tree K V, putAll ops = .ok t ∧
      (k ∈ t.keys ↔ ∃ p ∈ ops, p.1 = k) ∧
      (k ∈ t.keys ↔ (t.get k).isSome = true)) ∧
    (∀ v : Fin 7 → V, ∃ t : red_black_tree Int V,
      putAll [(5, v 0), (3, v 1), (8, v 2), (1, v 3), (4, v 4), (7, v 5), (9, v 6)] = .ok t ∧
      t.keys = [1, 3, 4, 5, 7, 8, 9] ∧ t.get 6 = none) := by
  constructor
  · obtain ⟨t, ht, hg, hl⟩ := putAll_spec ops
    refine ⟨t, ht, ?_, ?_⟩
    · rw [keys_eq, hl]
      exact keys_model ops k
    · rw [good_get t hg, assocGet_isSome, keys_eq]
  · intro v
    exact ⟨_, rfl, rfl, rfl⟩

/-- C4: after any sequence of `put` calls on the empty tree, `size()` is the
number of distinct keys of the sequence and the length of `keys()`. -/
theorem C4_size_counts_distinct_keys (ops : List (K × V)) :
    ∃ t : red_black_tree K V, putAll ops = .ok t ∧
      t.size = (((ops.map Prod.fst).toFinset.card : Nat) : Int) ∧
      t.size = ((t.keys.length : Nat) : Int) := by
  obtain ⟨t, ht, hg, hl⟩ := putAll_spec ops
  have hlen : t.size = ((t.keys.length : Nat) : Int) := by
    rw [good_size t hg, keys_eq, List.length_map]
  have hnd : t.keys.Nodup := (good_keys_pairwise t hg).imp (fun h => ne_of_lt h)
  have hset : t.keys.toFinset = (ops.map Prod.fst).toFinset := by
    ext x
    simp only [List.mem_toFinset]
    rw [keys_eq, hl, keys_model]
    simp
  refine ⟨t, ht, ?_, hlen⟩
  rw [hlen, ← hset, List.toFinset_card_of_nodup hnd]

/-- C5: on any tree reached from the empty tree by `put` calls, `put(k, v1)`
followed by `put(k, v2)` both return, `get(k)` is then `v2`, and `size()` after
the second call equals `size()` after the first. -/
theorem C5_overwrite_keeps_size (ops : List (K × V)) (k : K) (v1 v2 : V) :
    ∃ t0 t1 t2 : red_black_tree K V, putAll ops = .ok t0 ∧
      t0.put k v1 = .ok t1 ∧ t1.put k v2 = .ok t2 ∧
      t2.get k = some v2 ∧ t2.size = t1.size := by
  obtain ⟨t0, ht0, hg0, _⟩ := putAll_spec ops
  obtain ⟨t1, ht1, hg1, _, hl1⟩ := put_spec t0 k v1 hg0
  obtain ⟨t2, ht2, hg2, _, hl2⟩ := put_spec t1 k v2 hg1
  refine ⟨t0, t1, t2, ht0, ht1, ht2, ?_, ?_⟩
  · rw [good_get t2 hg2, hl2, assocGet_upsert, if_pos rfl]
  · rw [good_size t2 hg2, good_size t1 hg1, hl2]
    have hmem : k ∈ (toList t1.root).map Prod.fst := by
      rw [hl1, keys_upsert]
      exact Or.inl rfl
    rw [length_upsert_of_mem _ k v2 ((isBST_iff_pairwise _).mp hg1.2.2.1) hmem]

theorem keys_mem_of_mem (ops : List (K × V)) (t : red_black_tree K V)
    (hl : toList t.root = model ops) (p : K × V) (hp : p ∈ ops) : p.1 ∈ t.keys := by
  rw [keys_eq, hl, keys_model]
  exact ⟨p, hp, rfl⟩

/-- C6: on a tree reached from the empty tree by a non-empty sequence of `put`
calls (these are exactly the non-empty reachable trees), `min()` is present,
is the first element of `keys()`, is one of the keys put and is at most every
key put.  On the keys 5, 3, 8, 1, 4, 7, 9 (any values) `min()` is 1. -/
theorem C6_min_is_smallest_key (p : K × V) (ops : List (K × V)) :
    (∃ (t : red_black_tree K V) (m : K), putAll (p :: ops) = .ok t ∧
      t.root.isNull = false ∧ t.min = some m ∧ t.keys.head? = some m ∧
      (∃ q ∈ p :: ops, q.1 = m) ∧ (∀ q ∈ p :: ops, m ≤ q.1)) ∧
    (putAll ([] : List (K × V)) = .ok empty) ∧
    (∀ v : Fin 7 → V, ∃ t : red_black_tree Int V,
      putAll [(5, v 0), (3, v 1), (8, v 2), (1, v 3), (4, v 4), (7, v 5), (9, v 6)] = .ok t ∧
      t.min = some 1) := by
  refine ⟨?_, rfl, fun v => ⟨_, rfl, rfl⟩⟩
  obtain ⟨t, ht, hg, hl⟩ := putAll_spec (p :: ops)
  have hp : p.1 ∈ t.keys := keys_mem_of_mem _ t hl p (List.mem_cons_self _ _)
  have hsorted := good_keys_pairwise t hg
  have hnull : t.root.isNull = false := by
    have hk := keys_eq t
    cases hr : t.root with
    | null => rw [hr] at hk; simp [toList] at hk; rw [hk] at hp; simp at hp
    | mk k v c color l r => rfl
  cases hk : t.keys with
  | nil => rw [hk] at hp; simp at hp
  | cons m rest =>
    rw [hk, List.pairwise_cons] at hsorted
    have hm : m ∈ t.keys := by rw [hk]; exact List.mem_cons_self _ _
    refine ⟨t, m, ht, hnull, ?_, by rw [hk]; rfl, ?_, ?_⟩
    · rw [min_eq_head, hk]; rfl
    · rw [keys_eq, hl, keys_model] at hm
      exact hm
    · intro q hq
      have hq2 := keys_mem_of_mem _ t hl q hq
      rw [hk] at hq2
      rcases List.mem_cons.mp hq2 with h | h
      · exact le_of_eq h.symm
      · exact le_of_lt (hsorted.1 _ h)

/-- C7: on a tree reached from the empty tree by a non-empty sequence of `put`
calls (these are exactly the non-empty reachable trees), `max()` is present,
is the last element of `keys()`, is one of the keys put and is at least every
key put.  On the keys 5, 3, 8, 1, 4, 7, 9 (any values) `max()` is 9. -/
theorem C7_max_is_largest_key (p : K × V) (ops : List (K × V)) :
    (∃ (t : red_black_tree K V) (m : K), putAll (p :: ops) = .ok t ∧
      t.root.isNull = false ∧ t.max = some m ∧ t.keys.getLast? = some m ∧
      (∃ q ∈ p :: ops, q.1 = m) ∧ (∀ q ∈ p :: ops, q.1 ≤ m)) ∧
    (putAll ([] : List (K × V)) = .ok empty) ∧
    (∀ v : Fin 7 → V, ∃ t : red_black_tree Int V,
      putAll [(5, v 0), (3, v 1), (8, v 2), (1, v 3), (4, v 4), (7, v 5), (9, v 6)] = .ok t ∧
      t.max = some 9) := by
  refine ⟨?_, rfl, fun v => ⟨_, rfl, rfl⟩⟩
  obtain ⟨t, ht, hg, hl⟩ := putAll_spec (p :: ops)
  have hp : p.1 ∈ t.keys := keys_mem_of_mem _ t hl p (List.mem_cons_self _ _)
  have hsorted := good_keys_pairwise t hg
  have hnull : t.root.isNull = false := by
    have hk := keys_eq t
    cases hr : t.root with
    | null => rw [hr] at hk; simp [toList] at hk; rw [hk] at hp; simp at hp
    | mk k v c color l r => rfl
  have hne : t.keys ≠ [] := List.ne_nil_of_mem hp
  obtain ⟨init, m, hk⟩ : ∃ init m, t.keys = init ++ [m] :=
    ⟨t.keys.dropLast, t.keys.getLast hne, (List.dropLast_append_getLast hne).symm⟩
  rw [hk, List.pairwise_append] at hsorted
  have hm : m ∈ t.keys := by rw [hk]; simp
  refine ⟨t, m, ht, hnull, ?_, ?_, ?_, ?_⟩
  · rw [max_eq_getLast, hk]; simp
  · rw [hk]; simp
  · rw [keys_eq, hl, keys_model] at hm
    exact hm
  · intro q hq
    have hq2 := keys_mem_of_mem _ t hl q hq
    rw [hk] at hq2
    rcases List.mem_append.mp hq2 with h | h
    · exact le_of_lt (hsorted.2.2 _ h m (by simp))
    · simp only [List.mem_singleton] at h
      exact le_of_eq h

/-- C8: on the empty tree `min()`, `max()` and every `get(k)` are absent,
`size()` is 0, `keys()` is empty and `toString()` is the empty string; and a
tree whose `min()` or `max()` is absent is the empty tree. -/
theorem C8_empty_tree (fmt : K → String) :
    putAll ([] : List (K × V)) = .ok empty ∧
    (empty : red_black_tree K V).min = none ∧
    (empty : red_black_tree K V).max = none ∧
    (∀ k : K, (empty : red_black_tree K V).get k = none) ∧
    (empty : red_black_tree K V).size = 0 ∧
    (empty : red_black_tree K V).keys = [] ∧
    (empty : red_black_tree K V).toString fmt = .ok "" ∧
    (∀ t : red_black_tree K V, t.min = none ↔ t = empty) ∧
    (∀ t : red_black_tree K V, t.max = none ↔ t = empty) := by
  refine ⟨rfl, rfl, rfl, fun _ => rfl, rfl, rfl, rfl, ?_, ?_⟩
  · rintro ⟨root⟩
    cases root <;> simp [min, empty]
  · rintro ⟨root⟩
    cases root <;> simp [max, empty]

/-- C9: after any sequence of `put` calls on the empty tree (non-empty or not),
every path from the root to an absent child has the same number of black
nodes. -/
theorem C9_perfect_black_balance (ops : List (K × V)) :
    ∃ t : red_black_tree K V, putAll ops = .ok t ∧
      ∀ a ∈ blackCounts t.root, ∀ b ∈ blackCounts t.root, a = b := by
  obtain ⟨t, ht, hg, _⟩ := putAll_spec ops
  refine ⟨t, ht, ?_⟩
  intro a ha b hb
  rw [blackCounts_of_LLRB t.root hg.2.1 a ha, blackCounts_of_LLRB t.root hg.2.1 b hb]

/-- C10: after any sequence of `put` calls on the empty tree, no node has a red
right child, no node has both a red left child and a red left child of that
child, and no node has two red children. -/
theorem C10_no_right_red_no_double_red (ops : List (K × V)) :
    ∃ t : red_black_tree K V, putAll ops = .ok t ∧
      ∀ k v c color l r, Node.mk k v c color l r ∈ subtrees t.root →
        isRed r = false ∧
        (∀ lk lv lc lcolor ll lr, l = Node.mk lk lv lc lcolor ll lr →
          ¬ (isRed l = true ∧ isRed ll = true)) ∧
        ¬ (isRed l = true ∧ isRed r = true) := by
  obtain ⟨t, ht, hg, _⟩ := putAll_spec ops
  refine ⟨t, ht, ?_⟩
  intro k v c color l r hmem
  obtain ⟨hr, _, _, hl, _⟩ := LLRB_of_mem_subtrees t.root hg.2.1 _ hmem
  refine ⟨hr, ?_, ?_⟩
  · intro lk lv lc lcolor ll lr hl2
    subst hl2
    rintro ⟨h1, h2⟩
    have hc : lcolor = Color.RED := by simpa [isRed, Node.isRed] using h1
    have := hl.2.1 hc
    rw [this] at h2
    exact Bool.false_ne_true h2
  · rintro ⟨_, h2⟩
    rw [hr] at h2
    exact Bool.false_ne_true h2

end Ordered
end red_black_tree

/-! ## Balance, counts and assertions -/

namespace RedBlackTree
variable {K V : Type}

theorem height_le_of_LLRB (t : Node K V) (h : LLRB t) :
    height t ≤ 2 * bh t + (if isRed t = true then 1 else 0) := by
  induction t with
  | null => simp [height, bh]
  | mk k v c color l r ihl ihr =>
    obtain ⟨hr, hl, hb, hsl, hsr⟩ := h
    have h1 := ihl hsl
    have h2 := ihr hsr
    rw [hr] at h2
    simp only [Bool.false_eq_true, if_false, Nat.add_zero] at h2
    cases color with
    | RED =>
      rw [hl rfl] at h1
      simp only [Bool.false_eq_true, if_false, Nat.add_zero] at h1
      simp only [height, bh, isRed, Node.isRed, decide_True, if_true, Nat.max_def]
      split_ifs <;> simp at * <;> omega
    | BLACK =>
      have h3 : height l ≤ 2 * bh l + 1 := by
        split_ifs at h1 <;> omega
      simp only [height, bh, isRed, Node.isRed, Nat.max_def]
      split_ifs <;> simp at * <;> omega

theorem pow_bh_le_of_LLRB (t : Node K V) (h : LLRB t) : 2 ^ bh t ≤ numNodes t + 1 := by
  induction t with
  | null => simp [bh, numNodes]
  | mk k v c color l r ihl ihr =>
    obtain ⟨_, _, hb, hsl, hsr⟩ := h
    have h1 := ihl hsl
    have h2 := ihr hsr
    rw [← hb] at h2
    cases color with
    | RED =>
      simp only [bh, numNodes]
      simp
      omega
    | BLACK =>
      simp only [bh, numNodes, if_true, pow_succ]
      omega

theorem numNodes_eq_length (t : Node K V) : numNodes t = (toList t).length := by
  induction t with
  | null => simp [numNodes, toList]
  | mk k v c color l r ihl ihr =>
    simp only [numNodes, toList, List.length_append, List.length_cons, ihl, ihr]
    omega

theorem CountOK_of_mem_subtrees (t : Node K V) (h : CountOK t) :
    ∀ n ∈ subtrees t, CountOK n := by
  induction t with
  | null => simp [subtrees]
  | mk k v c color l r ihl ihr =>
    intro n hn
    simp only [subtrees, List.mem_cons, List.mem_append] at hn
    rcases hn with rfl | hn | hn
    · exact h
    · exact ihl h.2.1 n hn
    · exact ihr h.2.2 n hn

theorem sizeNode_eq_numNodes (t : Node K V) (h : CountOK t) :
    sizeNode t = (numNodes t : Int) := by
  rw [sizeNode_eq_length t h, numNodes_eq_length]

end RedBlackTree

namespace red_black_tree
open RedBlackTree
variable {K V : Type}

section Ordered
variable [LinearOrder K]

/-- C11: on every tree reached from the empty tree by `put` calls, with `n`
nodes and height `h`, `2 ^ h ≤ (n + 1) ^ 2`, that is `h ≤ 2 * log2 (n + 1)`
(here even with the logarithm rounded down); `n` is also what `size()`
returns. -/
theorem C11_height_bound (ops : List (K × V)) :
    ∃ t : red_black_tree K V, putAll ops = .ok t ∧
      2 ^ height t.root ≤ (numNodes t.root + 1) ^ 2 ∧
      height t.root ≤ 2 * Nat.log 2 (numNodes t.root + 1) ∧
      t.size = (numNodes t.root : Int) := by
  obtain ⟨t, ht, hg, _⟩ := putAll_spec ops
  obtain ⟨hred, hs, _, hc⟩ := hg
  have hh := height_le_of_LLRB t.root hs
  rw [hred] at hh
  simp only [Bool.false_eq_true, if_false, Nat.add_zero] at hh
  have hn := pow_bh_le_of_LLRB t.root hs
  refine ⟨t, ht, ?_, ?_, sizeNode_eq_numNodes t.root hc⟩
  · calc 2 ^ height t.root ≤ 2 ^ (2 * bh t.root) := Nat.pow_le_pow_right (by decide) hh
      _ = (2 ^ bh t.root) ^ 2 := by rw [Nat.mul_comm, Nat.pow_mul]
      _ ≤ (numNodes t.root + 1) ^ 2 := Nat.pow_le_pow_left hn 2
  · have hlog : bh t.root ≤ Nat.log 2 (numNodes t.root + 1) :=
      Nat.le_log_of_pow_le (by decide) hn
    omega

/-- C13: on every tree reached from the empty tree by `put` calls, the `count`
field of every node is one more than the counts of its two children (0 for an
absent child), and equals the number of nodes of the subtree the node roots. -/
theorem C13_count_is_subtree_size (ops : List (K × V)) :
    ∃ t : red_black_tree K V, putAll ops = .ok t ∧
      ∀ k v c color l r, Node.mk k v c color l r ∈ subtrees t.root →
        c = 1 + sizeNode l + sizeNode r ∧
        c = (numNodes (Node.mk k v c color l r) : Int) := by
  obtain ⟨t, ht, hg, _⟩ := putAll_spec ops
  refine ⟨t, ht, ?_⟩
  intro k v c color l r hmem
  have hc := CountOK_of_mem_subtrees t.root hg.2.2.2 _ hmem
  exact ⟨hc.1, sizeNode_eq_numNodes _ hc⟩

end Ordered
end red_black_tree

namespace RedBlackTree
variable {K V : Type}

set_option maxHeartbeats 4000000 in
theorem fixUp_fault_aux (k : K) (v : V) (c : Int) (color : Color) (l r : Node K V) :
    match fixUp (Node.mk k v c color l r) with
    | .ok n => n.isNull = false
    | .error e => e = Fault.assertFailed := by
  rcases l with _ | ⟨lk, lv, lc, _ | _, _ | ⟨llk, llv, llc, _ | _, lll, llr⟩, lr⟩ <;>
  rcases r with _ | ⟨rk, rv, rc, _ | _, rl, _ | ⟨rrk, rrv, rrc, _ | _, rrl, rrr⟩⟩ <;>
  rcases color with _ | _ <;>
  simp [fixUp, Node.left, Node.right, isRed, Node.isRed, rotateLeft, rotateRight,
    flipColors, updateCount, Node.isNull, bind, Except.bind, pure, Except.pure]

section Ordered
variable [LinearOrder K]

/-- On any subtree whatsoever the private `put` never goes through `nullptr`
and never returns `nullptr`: it returns a node or stops at an assertion. -/
theorem putNode_fault (key : K) (val : V) (t : Node K V) :
    match putNode t key val with
    | .ok n => n.isNull = false
    | .error e => e = Fault.assertFailed := by
  induction t with
  | null => simp [putNode, Node.isNull]
  | mk k v c color l r ihl ihr =>
    by_cases h1 : key < k
    · rw [putNode_lt _ _ _ _ _ _ _ _ h1]
      cases hl : putNode l key val with
      | error e =>
        rw [hl] at ihl
        simpa [bind, Except.bind] using ihl
      | ok l1 => exact fixUp_fault_aux k v c color l1 r
    · by_cases h2 : k < key
      · rw [putNode_gt _ _ _ _ _ _ _ _ h2]
        cases hr : putNode r key val with
        | error e =>
          rw [hr] at ihr
          simpa [bind, Except.bind] using ihr
        | ok r1 => exact fixUp_fault_aux k v c color l r1
      · rw [putNode_eq _ _ _ _ _ _ _ _ h1 h2]
        exact fixUp_fault_aux k val c color l r

end Ordered
end RedBlackTree

namespace red_black_tree
open RedBlackTree
variable {K V : Type}

section Ordered
variable [LinearOrder K]

/-- On any tree value whatsoever the public `put` either returns or stops at
an assertion; it never goes through `nullptr`. -/
theorem put_fault (t : red_black_tree K V) (k : K) (v : V) :
    (∃ t1, t.put k v = .ok t1) ∨ t.put k v = .error Fault.assertFailed := by
  have hf := putNode_fault k v t.root
  simp only [put, bind, Except.bind]
  cases hp : putNode t.root k v with
  | error e =>
    rw [hp] at hf
    right
    simp only at hf
    rw [hf]
  | ok n =>
    rw [hp] at hf
    cases n with
    | null => simp [Node.isNull] at hf
    | mk rk rv rc rcolor rl rr => exact Or.inl ⟨_, rfl⟩

/-- C12: a `put` on a tree reached from the empty tree by `put` calls returns a
non-empty tree whose root is black.  On any tree value whatsoever, a `put`
that returns has returned a non-empty tree with a black root, and a `put` can
fail to return only by stopping at an internal assertion. -/
theorem C12_root_black_after_put (k : K) (v : V) :
    (∀ ops : List (K × V), ∃ t0 t1 : red_black_tree K V, putAll ops = .ok t0 ∧
      t0.put k v = .ok t1 ∧ t1.root.isNull = false ∧ isRed t1.root = false) ∧
    (∀ t t1 : red_black_tree K V, t.put k v = .ok t1 →
      ∃ rk rv rc rl rr, t1.root = Node.mk rk rv rc Color.BLACK rl rr) ∧
    (∀ t : red_black_tree K V,
      (∃ t1, t.put k v = .ok t1) ∨ t.put k v = .error Fault.assertFailed) := by
  refine ⟨?_, ?_, ?_⟩
  · intro ops
    obtain ⟨t0, ht0, hg0, _⟩ := putAll_spec ops
    obtain ⟨t1, ht1, hg1, hn1, _⟩ := put_spec t0 k v hg0
    exact ⟨t0, t1, ht0, ht1, hn1, hg1.1⟩
  · intro t t1 h
    simp only [put, bind, Except.bind] at h
    cases hp : putNode t.root k v with
    | error e => rw [hp] at h; cases h
    | ok n =>
      rw [hp] at h
      cases n with
      | null => cases h
      | mk rk rv rc rcolor rl rr =>
        simp only [pure, Except.pure, Except.ok.injEq] at h
        exact ⟨rk, rv, rc, rl, rr, by rw [← h]⟩
  · intro t
    exact put_fault t k v

/-- C14: in the model a failed `assert` and an access through `nullptr` stop
the run with a fault.  Every sequence of `put` calls on the empty tree runs to
the end without a fault; and the three helpers return exactly when their
assertions hold: `rotateLeft` when the right child is red, `rotateRight` when
the left child is red, `flipColors` when the node is black and both children
are red.  On any tree value whatsoever no `put` goes through `nullptr`. -/
theorem C14_no_assertion_fails (ops : List (K × V)) :
    (∃ t : red_black_tree K V, putAll ops = .ok t) ∧
    (∀ (t : red_black_tree K V) (k : K) (v : V), t.put k v ≠ .error Fault.nullDeref) ∧
    (∀ (k : K) (v : V) (c : Int) (color : Color) (l r : Node K V),
      ((∃ n, rotateLeft (Node.mk k v c color l r) = .ok n) ↔ isRed r = true) ∧
      ((∃ n, rotateRight (Node.mk k v c color l r) = .ok n) ↔ isRed l = true) ∧
      ((∃ n, flipColors (Node.mk k v c color l r) = .ok n) ↔
        (color = Color.BLACK ∧ isRed l = true ∧ isRed r = true))) := by
  refine ⟨?_, ?_, ?_⟩
  · obtain ⟨t, ht, _, _⟩ := putAll_spec ops
    exact ⟨t, ht⟩
  · intro t k v h
    rcases put_fault t k v with ⟨t1, h1⟩ | h1
    · rw [h1] at h; cases h
    · rw [h1] at h; cases h
  · intro k v c color l r
    refine ⟨?_, ?_, ?_⟩
    · rcases r with _ | ⟨rk, rv, rc, _ | _, rl, rr⟩ <;>
        simp [rotateLeft, isRed, Node.isRed]
    · rcases l with _ | ⟨lk, lv, lc, _ | _, ll, lr⟩ <;>
        simp [rotateRight, isRed, Node.isRed]
    · rcases l with _ | ⟨lk, lv, lc, _ | _, ll, lr⟩ <;>
      rcases r with _ | ⟨rk, rv, rc, _ | _, rl, rr⟩ <;>
      rcases color with _ | _ <;>
        simp [flipColors, isRed, Node.isRed]

end Ordered
end red_black_tree

/-! ## The three local repairs -/

namespace RedBlackTree
variable {K V : Type}

/-- C15: on a node `h` whose right child `x` is red, `rotateLeft` returns `x`
with left child `h` and the colour `h` had; `h` is red, keeps its left child
and has the former left child of `x` on the right; `x` keeps its right child;
the count of `h` and then of `x` is one more than the counts of its children.
The in-order sequence of keys (and of key-value pairs) is unchanged, so
search-tree order is preserved. -/
theorem C15_rotateLeft_promotes_right [LinearOrder K] (hk : K) (hv : V) (hc : Int) (hcolor : Color)
    (hl : Node K V) (xk : K) (xv : V) (xc : Int) (xl xr : Node K V) (acc : List K) :
    ∃ n, rotateLeft (Node.mk hk hv hc hcolor hl (Node.mk xk xv xc Color.RED xl xr)) = .ok n ∧
      n = Node.mk xk xv (1 + (1 + sizeNode hl + sizeNode xl) + sizeNode xr) hcolor
            (Node.mk hk hv (1 + sizeNode hl + sizeNode xl) Color.RED hl xl) xr ∧
      inorder n acc
        = inorder (Node.mk hk hv hc hcolor hl (Node.mk xk xv xc Color.RED xl xr)) acc ∧
      toList n = toList (Node.mk hk hv hc hcolor hl (Node.mk xk xv xc Color.RED xl xr)) ∧
      (isBST (Node.mk hk hv hc hcolor hl (Node.mk xk xv xc Color.RED xl xr)) → isBST n) := by
  refine ⟨_, rfl, ?_, ?_, ?_, ?_⟩
  · simp [sizeNode]
  · simp [inorder_eq, toList]
  · simp [toList]
  · intro h
    rw [isBST_iff_pairwise] at h ⊢
    simpa [toList] using h

/-- C16: on a node `h` whose left child `x` is red, `rotateRight` returns `x`
with right child `h` and the colour `h` had; `h` is red, keeps its right child
and has the former right child of `x` on the left; `x` keeps its left child.
The in-order sequence of keys is unchanged, and the black counts of the
root-to-absent-child paths are the same list as before: a black-balanced
subtree stays black-balanced with the same black height. -/
theorem C16_rotateRight_mirror (hk : K) (hv : V) (hc : Int) (hcolor : Color)
    (hr : Node K V) (xk : K) (xv : V) (xc : Int) (xl xr : Node K V) (acc : List K) :
    ∃ n, rotateRight (Node.mk hk hv hc hcolor (Node.mk xk xv xc Color.RED xl xr) hr) = .ok n ∧
      n = Node.mk xk xv (1 + sizeNode xl + (1 + sizeNode xr + sizeNode hr)) hcolor
            xl (Node.mk hk hv (1 + sizeNode xr + sizeNode hr) Color.RED xr hr) ∧
      inorder n acc
        = inorder (Node.mk hk hv hc hcolor (Node.mk xk xv xc Color.RED xl xr) hr) acc ∧
      blackCounts n
        = blackCounts (Node.mk hk hv hc hcolor (Node.mk xk xv xc Color.RED xl xr) hr) ∧
      (∀ b : Nat,
        (∀ a ∈ blackCounts (Node.mk hk hv hc hcolor (Node.mk xk xv xc Color.RED xl xr) hr),
          a = b) →
        (∀ a ∈ blackCounts n, a = b)) := by
  have hbc : blackCounts (Node.mk xk xv (1 + sizeNode xl + (1 + sizeNode xr + sizeNode hr)) hcolor
            xl (Node.mk hk hv (1 + sizeNode xr + sizeNode hr) Color.RED xr hr))
        = blackCounts (Node.mk hk hv hc hcolor (Node.mk xk xv xc Color.RED xl xr) hr) := by
    simp [blackCounts]
  refine ⟨_, rfl, ?_, ?_, hbc, ?_⟩
  · simp [sizeNode]
  · simp [inorder_eq, toList]
  · intro b h a ha
    exact h a (by rw [← hbc]; exact ha)

/-- C17 as the code has it: on a black node with two red children `flipColors`
makes the node red and both children black (all three colours toggle) and
leaves every key, value, count and link as it was; on a red node it stops at
its first assertion. -/
theorem C17_flipColors_black_parent (k : K) (v : V) (c : Int)
    (lk : K) (lv : V) (lc : Int) (ll lr : Node K V)
    (rk : K) (rv : V) (rc : Int) (rl rr : Node K V) :
    flipColors (Node.mk k v c Color.BLACK
        (Node.mk lk lv lc Color.RED ll lr) (Node.mk rk rv rc Color.RED rl rr))
      = .ok (Node.mk k v c Color.RED
          (Node.mk lk lv lc Color.BLACK ll lr) (Node.mk rk rv rc Color.BLACK rl rr)) ∧
    (∀ l r : Node K V, flipColors (Node.mk k v c Color.RED l r) = .error Fault.assertFailed) := by
  refine ⟨rfl, ?_⟩
  intro l r
  simp [flipColors, isRed, Node.isRed]

/-- C17 fails in the reverse case: on the red node 2 with black children 1 and
3, `flipColors` stops at `assert(!isRed(h))` and does not return the node with
the three colours toggled. -/
theorem C17_reverse_case_counterexample :
    flipColors (Node.mk (2 : Int) (0 : Int) 3 Color.RED
        (Node.mk 1 0 1 Color.BLACK Node.null Node.null)
        (Node.mk 3 0 1 Color.BLACK Node.null Node.null))
      = .error Fault.assertFailed ∧
    flipColors (Node.mk (2 : Int) (0 : Int) 3 Color.RED
        (Node.mk 1 0 1 Color.BLACK Node.null Node.null)
        (Node.mk 3 0 1 Color.BLACK Node.null Node.null))
      ≠ .ok (Node.mk 2 0 3 Color.BLACK
        (Node.mk 1 0 1 Color.RED Node.null Node.null)
        (Node.mk 3 0 1 Color.RED Node.null Node.null)) := by
  refine ⟨rfl, ?_⟩
  intro h
  cases h

end RedBlackTree

/-! ## The rendering -/

namespace RedBlackTree
variable {K V : Type}

theorem renderLines_append (fmt : K → String) (A B : List (String × K)) :
    renderLines fmt (A ++ B) = renderLines fmt A ++ renderLines fmt B := by
  induction A with
  | nil => simp [renderLines]
  | cons a A ih =>
    obtain ⟨p, k⟩ := a
    rw [List.cons_append]
    simp only [renderLines, ih, String.append_assoc]

theorem print_child (fmt : K → String) (t : Node K V)
    (ih : ∀ (ss pfx childrenPfx : String), t.isNull = false →
      Node.print fmt t ss pfx childrenPfx
        = .ok (ss ++ renderLines fmt (printLines t pfx childrenPfx)))
    (ss pfx childrenPfx : String) :
    (if (!t.isNull) = true then Node.print fmt t ss pfx childrenPfx else pure ss)
      = .ok (ss ++ renderLines fmt (printLines t pfx childrenPfx)) := by
  cases t with
  | null => simp [Node.isNull, printLines, renderLines, pure, Except.pure]
  | mk k v c color l r =>
    simp only [Node.isNull, Bool.not_false, if_true]
    exact ih ss pfx childrenPfx rfl

/-- The member `print` on a present node returns, and appends to the stream
the text of `printLines`. -/
theorem print_eq (fmt : K → String) (t : Node K V) :
    ∀ (ss pfx childrenPfx : String), t.isNull = false →
      Node.print fmt t ss pfx childrenPfx
        = .ok (ss ++ renderLines fmt (printLines t pfx childrenPfx)) := by
  induction t with
  | null => intro _ _ _ h; simp [Node.isNull] at h
  | mk key v c color left right ihl ihr =>
    intro ss pfx childrenPfx _
    rw [Node.print]
    simp only [bind, Except.bind, print_child fmt left ihl]
    conv_rhs => rw [printLines, renderLines, renderLines_append]
    cases right with
    | null =>
      simp only [Node.isNull, Bool.not_true, Bool.false_eq_true, if_false, pure, Except.pure,
        printLines, renderLines, String.empty_append, String.append_assoc]
    | mk rk rv rc rcolor rl rr =>
      simp only [Node.isNull, Bool.not_false, if_true]
      rw [ihr _ _ _ rfl]
      simp only [String.append_assoc]

end RedBlackTree

namespace RedBlackTree
variable {K V : Type}

theorem digitChar_plain (d : Nat) (h : d < 10) :
    Nat.digitChar d ≠ '\n' ∧ Nat.digitChar d ≠ '└' := by
  interval_cases d <;> simp [Nat.digitChar]

theorem toDigitsCore_plain (fuel : Nat) :
    ∀ (n : Nat) (acc : List Char), (∀ c ∈ acc, c ≠ '\n' ∧ c ≠ '└') →
      ∀ c ∈ Nat.toDigitsCore 10 fuel n acc, c ≠ '\n' ∧ c ≠ '└' := by
  induction fuel with
  | zero => intro n acc h; simpa [Nat.toDigitsCore] using h
  | succ fuel ih =>
    intro n acc h
    have hd := digitChar_plain (n % 10) (Nat.mod_lt _ (by decide))
    have hacc : ∀ c ∈ Nat.digitChar (n % 10) :: acc, c ≠ '\n' ∧ c ≠ '└' := by
      intro c hc
      rcases List.mem_cons.mp hc with rfl | hc
      · exact hd
      · exact h c hc
    simp only [Nat.toDigitsCore]
    split_ifs
    · exact hacc
    · exact ih _ _ hacc

theorem natRepr_plain (n : Nat) : ∀ c ∈ (Nat.repr n).data, c ≠ '\n' ∧ c ≠ '└' := by
  have h := toDigitsCore_plain (n + 1) n [] (by simp)
  simpa [Nat.repr, Nat.toDigits, List.asString] using h

/-- The decimal text of an integer has no newline and no `└`. -/
theorem intText_plain (k : Int) : ∀ c ∈ (intText k).data, c ≠ '\n' ∧ c ≠ '└' := by
  cases k with
  | ofNat m => exact natRepr_plain m
  | negSucc m =>
    intro c hc
    simp only [intText, Int.repr, String.data_append, List.mem_append] at hc
    rcases hc with hc | hc
    · have : c = '-' := by simpa using hc
      subst this
      exact ⟨by decide, by decide⟩
    · exact natRepr_plain _ c hc

theorem noLoneRightMark_of_plain (s : List Char) (h : ∀ c ∈ s, c ≠ '└') :
    noLoneRightMark s = true := by
  induction s with
  | nil => rfl
  | cons c s ih =>
    have hc : c ≠ '└' := h c (List.mem_cons_self _ _)
    simp [noLoneRightMark, hc, ih (fun d hd => h d (List.mem_cons_of_mem _ hd))]

theorem noLoneRightMark_append (a b : List Char)
    (ha : noLoneRightMark a = true) (hb : noLoneRightMark b = true) :
    noLoneRightMark (a ++ b) = true := by
  induction a with
  | nil => simpa using hb
  | cons c a ih =>
    simp only [noLoneRightMark, Bool.and_eq_true, Bool.or_eq_true] at ha
    obtain ⟨h1, h2⟩ := ha
    simp only [List.cons_append, noLoneRightMark, Bool.and_eq_true, Bool.or_eq_true]
    refine ⟨?_, ih h2⟩
    rcases h1 with h1 | h1
    · exact Or.inl h1
    · right
      cases a with
      | nil => simp at h1
      | cons d a => simpa using h1

theorem not_infix_of_noLoneRightMark (s : List Char) (h : noLoneRightMark s = true) :
    ¬ (['└', 'r'] <:+: s) := by
  induction s with
  | nil =>
    intro hi
    have := List.eq_nil_of_infix_nil hi
    cases this
  | cons c s ih =>
    simp only [noLoneRightMark, Bool.and_eq_true, Bool.or_eq_true] at h
    obtain ⟨h1, h2⟩ := h
    rw [List.infix_cons_iff]
    rintro (hp | hi)
    · obtain ⟨t, ht⟩ := hp
      simp only [List.cons_append, List.cons.injEq, List.nil_append] at ht
      obtain ⟨hc, hs⟩ := ht
      subst hc
      rw [← hs] at h1
      simp at h1
    · exact ih h2 hi

end RedBlackTree

namespace RedBlackTree
variable {K V : Type}

theorem printLines_keys (t : Node K V) :
    ∀ (pfx childrenPfx : String),
      (printLines t pfx childrenPfx).map Prod.snd = preorderRL t := by
  induction t with
  | null => intro _ _; rfl
  | mk k v c color l r ihl ihr =>
    intro pfx childrenPfx
    simp only [printLines, preorderRL, List.map_cons, List.map_append, ihl, ihr]

theorem preorderRL_length (t : Node K V) : (preorderRL t).length = numNodes t := by
  induction t with
  | null => rfl
  | mk k v c color l r ihl ihr =>
    simp only [preorderRL, numNodes, List.length_cons, List.length_append, ihl, ihr]
    omega

theorem printLines_length (t : Node K V) (pfx childrenPfx : String) :
    (printLines t pfx childrenPfx).length = numNodes t := by
  rw [← preorderRL_length, ← printLines_keys t pfx childrenPfx, List.length_map]

theorem printLines_no_newline (t : Node K V) :
    ∀ (pfx childrenPfx : String), '\n' ∉ pfx.data → '\n' ∉ childrenPfx.data →
      ∀ q ∈ printLines t pfx childrenPfx, '\n' ∉ q.1.data := by
  induction t with
  | null => intro _ _ _ _ q hq; simp [printLines] at hq
  | mk k v c color l r ihl ihr =>
    intro pfx childrenPfx hp hc q hq
    simp only [printLines, List.mem_cons, List.mem_append] at hq
    rcases hq with rfl | hq | hq
    · exact hp
    · refine ihr _ _ ?_ ?_ q hq
      · split_ifs <;> simp [hc]
      · split_ifs <;> simp [hc]
    · refine ihl _ _ ?_ ?_ q hq
      · split_ifs <;> simp [hc]
      · simp [hc]

theorem renderLines_newlines (fmt : K → String) (L : List (String × K))
    (h : ∀ q ∈ L, '\n' ∉ q.1.data ∧ '\n' ∉ (fmt q.2).data) :
    (renderLines fmt L).data.count '\n' = L.length := by
  induction L with
  | nil => rfl
  | cons a L ih =>
    obtain ⟨p, k⟩ := a
    have ha := h (p, k) (List.mem_cons_self _ _)
    have h1 : List.count '\n' p.data = 0 := List.count_eq_zero.mpr ha.1
    have h2 : List.count '\n' (fmt k).data = 0 := List.count_eq_zero.mpr ha.2
    simp only [renderLines, String.data_append, List.count_append, List.length_cons, h1, h2,
      ih (fun q hq => h q (List.mem_cons_of_mem _ hq))]
    simp
    omega

end RedBlackTree

namespace red_black_tree
open RedBlackTree
variable {K V : Type}

/-- The public `toString()` of a non-empty tree returns the text of the lines
of its root, printed with empty front texts. -/
theorem toString_eq (fmt : K → String) (t : red_black_tree K V) (h : t.root.isNull = false) :
    t.toString fmt = .ok (renderLines fmt (printLines t.root "" "")) := by
  simp only [toString, h, Bool.not_false, if_true, Node.toString]
  rw [print_eq fmt t.root "" "" "" h, String.empty_append]

/-- A non-empty sequence of `put` calls on the empty tree ends in a non-empty
tree in the good state. -/
theorem putAll_cons_spec [LinearOrder K] (p : K × V) (ops : List (K × V)) :
    ∃ t : red_black_tree K V, putAll (p :: ops) = .ok t ∧ Good t ∧ t.root.isNull = false := by
  obtain ⟨t, ht, hg, hl⟩ := putAll_spec (p :: ops)
  have hp : p.1 ∈ t.keys := keys_mem_of_mem _ t hl p (List.mem_cons_self _ _)
  refine ⟨t, ht, hg, ?_⟩
  have hk := keys_eq t
  cases hr : t.root with
  | null => rw [hr] at hk; simp [toList] at hk; rw [hk] at hp; simp at hp
  | mk k v c color l r => rfl

/-- C18: on a non-empty tree reached from the empty tree by `put` calls, with
integer keys, `toString()` returns a text made of `size()` lines, top to
bottom: each is a front text without a newline, then the key of one node in
decimal (which has no newline), then a newline, so the text has exactly
`size()` newlines; the first line is the key of the root with an empty front
text; and the keys of the lines, top to bottom, are the nodes in the order
node, right subtree, left subtree. -/
theorem C18_toString_lines {V : Type} (p : Int × V) (ops : List (Int × V)) :
    ∃ (t : red_black_tree Int V) (s : String) (lines : List (String × Int)),
      putAll (p :: ops) = .ok t ∧ t.root.isNull = false ∧
      t.toString intText = .ok s ∧
      s = renderLines intText lines ∧
      ((lines.length : Nat) : Int) = t.size ∧
      ((s.data.count '\n' : Nat) : Int) = t.size ∧
      (∀ q ∈ lines, '\n' ∉ q.1.data ∧ '\n' ∉ (intText q.2).data) ∧
      (∃ rk rv rc rcolor rl rr rest,
        t.root = Node.mk rk rv rc rcolor rl rr ∧ lines = ("", rk) :: rest) ∧
      lines.map Prod.snd = preorderRL t.root := by
  obtain ⟨t, hput, hg, hnull⟩ := putAll_cons_spec p ops
  have hlen : ((printLines t.root "" "").length : Int) = t.size := by
    rw [printLines_length, ← sizeNode_eq_numNodes t.root hg.2.2.2]; rfl
  have hplain : ∀ q ∈ printLines t.root "" "",
      '\n' ∉ q.1.data ∧ '\n' ∉ (intText q.2).data := by
    intro q hq
    exact ⟨printLines_no_newline t.root "" "" (by simp) (by simp) q hq,
      fun hc => (intText_plain q.2 _ hc).1 rfl⟩
  refine ⟨t, _, printLines t.root "" "", hput, hnull, toString_eq intText t hnull, rfl,
    hlen, ?_, hplain, ?_, printLines_keys t.root "" ""⟩
  · rw [renderLines_newlines intText _ hplain]; exact hlen
  · cases hr : t.root with
    | null => rw [hr] at hnull; simp [Node.isNull] at hnull
    | mk rk rv rc rcolor rl rr => exact ⟨rk, rv, rc, rcolor, rl, rr, _, rfl, rfl⟩

end red_black_tree

namespace RedBlackTree
variable {K V : Type}

theorem right_null_of_left_null (k : K) (v : V) (c : Int) (color : Color) (l r : Node K V)
    (h : LLRB (Node.mk k v c color l r)) (hl : l.isNull = true) : r.isNull = true := by
  obtain ⟨hr, _, hb, _, _⟩ := h
  cases l with
  | mk lk lv lc lcolor ll lr => simp [Node.isNull] at hl
  | null =>
    cases r with
    | null => rfl
    | mk rk rv rc rcolor rl rr =>
      cases rcolor with
      | RED => simp [isRed, Node.isRed] at hr
      | BLACK => simp [bh] at hb

theorem printLines_marks (t : Node K V) (h : LLRB t) :
    ∀ (pfx childrenPfx : String), noLoneRightMark pfx.data = true →
      noLoneRightMark childrenPfx.data = true →
      ∀ q ∈ printLines t pfx childrenPfx, noLoneRightMark q.1.data = true := by
  induction t with
  | null => intro _ _ _ _ q hq; simp [printLines] at hq
  | mk k v c color l r ihl ihr =>
    intro pfx childrenPfx hp hc q hq
    have hleaf := right_null_of_left_null k v c color l r h
    obtain ⟨_, _, _, hsl, hsr⟩ := h
    simp only [printLines, List.mem_cons, List.mem_append] at hq
    rcases hq with rfl | hq | hq
    · exact hp
    · cases hln : l.isNull with
      | true =>
        have hrn := hleaf hln
        cases r with
        | null => simp [printLines] at hq
        | mk rk rv rc rcolor rl rr => simp [Node.isNull] at hrn
      | false =>
        rw [hln] at hq
        simp only [Bool.false_eq_true, if_false] at hq
        refine ihr hsr _ _ ?_ ?_ q hq
        · simp only [String.data_append]
          refine noLoneRightMark_append _ _ (noLoneRightMark_append _ _
            (noLoneRightMark_append _ _ hc (by decide)) ?_) (by decide)
          split_ifs <;> decide
        · simp only [String.data_append]
          exact noLoneRightMark_append _ _ hc (by decide)
    · refine ihl hsl _ _ ?_ ?_ q hq
      · simp only [String.data_append]
        refine noLoneRightMark_append _ _ (noLoneRightMark_append _ _
          (noLoneRightMark_append _ _ hc (by decide)) ?_) (by decide)
        split_ifs <;> decide
      · simp only [String.data_append]
        exact noLoneRightMark_append _ _ hc (by decide)

theorem renderLines_marks (fmt : K → String) (L : List (String × K))
    (h : ∀ q ∈ L, noLoneRightMark q.1.data = true ∧ ∀ c ∈ (fmt q.2).data, c ≠ '└') :
    noLoneRightMark (renderLines fmt L).data = true := by
  induction L with
  | nil => rfl
  | cons a L ih =>
    obtain ⟨p, k⟩ := a
    have ha := h (p, k) (List.mem_cons_self _ _)
    simp only [renderLines, String.data_append]
    exact noLoneRightMark_append _ _ (noLoneRightMark_append _ _
      (noLoneRightMark_append _ _ ha.1 (noLoneRightMark_of_plain _ ha.2)) (by decide))
      (ih (fun q hq => h q (List.mem_cons_of_mem _ hq)))

end RedBlackTree

namespace red_black_tree
open RedBlackTree
variable {K V : Type}

/-- C20: on every tree reached from the empty tree by `put` calls, a node with
an absent left child has an absent right child too (it is a leaf), so `print`
never meets "right present, left absent"; and, with integer keys, the text
`toString()` returns nowhere contains `└r`. -/
theorem C20_no_right_child_without_left [LinearOrder K] (ops : List (K × V))
    (iops : List (Int × V)) :
    (∃ t : red_black_tree K V, putAll ops = .ok t ∧
      ∀ k v c color l r, Node.mk k v c color l r ∈ subtrees t.root →
        l.isNull = true → r.isNull = true) ∧
    (∃ (t : red_black_tree Int V) (s : String), putAll iops = .ok t ∧
      t.toString intText = .ok s ∧ ¬ ("└r".data <:+: s.data)) := by
  constructor
  · obtain ⟨t, ht, hg, _⟩ := putAll_spec ops
    refine ⟨t, ht, ?_⟩
    intro k v c color l r hmem
    exact right_null_of_left_null k v c color l r (LLRB_of_mem_subtrees t.root hg.2.1 _ hmem)
  · obtain ⟨t, ht, hg, _⟩ := putAll_spec iops
    cases hn : t.root.isNull with
    | true =>
      refine ⟨t, "", ht, ?_, ?_⟩
      · simp [toString, hn]
      · exact not_infix_of_noLoneRightMark _ (by decide)
    | false =>
      refine ⟨t, _, ht, toString_eq intText t hn, ?_⟩
      apply not_infix_of_noLoneRightMark
      apply renderLines_marks
      intro q hq
      exact ⟨printLines_marks t.root hg.2.1 "" "" (by decide) (by decide) q hq,
        fun c hc => (intText_plain q.2 c hc).2⟩

end red_black_tree

/-! ## Overwriting a present key -/

namespace RedBlackTree
variable {K V : Type}

/-- On a well-shaped node with a consistent count none of the three guards of
the fix-up block holds: the block returns the node as it is. -/
theorem fixUp_quiet (k : K) (v : V) (c : Int) (color : Color) (l r : Node K V)
    (h : LLRB (Node.mk k v c color l r)) (hc : c = 1 + sizeNode l + sizeNode r) :
    fixUp (Node.mk k v c color l r) = .ok (Node.mk k v c color l r) := by
  rcases l with _ | ⟨lk, lv, lc, _ | _, _ | ⟨llk, llv, llc, _ | _, lll, llr⟩, lr⟩ <;>
  rcases r with _ | ⟨rk, rv, rc, _ | _, rl, rr⟩ <;>
  simp_all [fixUp, Node.left, Node.right, isRed, Node.isRed, rotateLeft, rotateRight,
    flipColors, updateCount, LLRB, bh, bind, Except.bind, pure, Except.pure]

theorem isRed_setVal [LinearOrder K] (t : Node K V) (key : K) (val : V) :
    isRed (setVal t key val) = isRed t := by
  cases t with
  | null => rfl
  | mk k v c color l r =>
    simp only [setVal]
    split_ifs <;> rfl

theorem sizeNode_setVal [LinearOrder K] (t : Node K V) (key : K) (val : V) :
    sizeNode (setVal t key val) = sizeNode t := by
  cases t with
  | null => rfl
  | mk k v c color l r =>
    simp only [setVal]
    split_ifs <;> rfl

theorem bh_setVal [LinearOrder K] (t : Node K V) (key : K) (val : V) : bh (setVal t key val) = bh t := by
  induction t with
  | null => rfl
  | mk k v c color l r ihl ihr =>
    simp only [setVal]
    split_ifs <;> simp [bh, ihl]

theorem LLRB_setVal [LinearOrder K] (t : Node K V) (key : K) (val : V) (h : LLRB t) :
    LLRB (setVal t key val) := by
  induction t with
  | null => exact h
  | mk k v c color l r ihl ihr =>
    obtain ⟨h1, h2, h3, h4, h5⟩ := h
    simp only [setVal]
    split_ifs
    · exact ⟨h1, by rw [isRed_setVal]; exact h2, by rw [bh_setVal]; exact h3, ihl h4, h5⟩
    · exact ⟨by rw [isRed_setVal]; exact h1, h2, by rw [bh_setVal]; exact h3, h4, ihr h5⟩
    · exact ⟨h1, h2, h3, h4, h5⟩

theorem eraseVal_setVal [LinearOrder K] (t : Node K V) (key : K) (val : V) :
    eraseVal (setVal t key val) = eraseVal t := by
  induction t with
  | null => rfl
  | mk k v c color l r ihl ihr =>
    simp only [setVal]
    split_ifs <;> simp [eraseVal, ihl, ihr]

theorem keys_eq_of_eraseVal (s t : Node K V) (h : eraseVal s = eraseVal t) :
    (toList s).map Prod.fst = (toList t).map Prod.fst := by
  induction s generalizing t with
  | null =>
    cases t with
    | null => rfl
    | mk k v c color l r => simp [eraseVal] at h
  | mk k v c color l r ihl ihr =>
    cases t with
    | null => simp [eraseVal] at h
    | mk k2 v2 c2 color2 l2 r2 =>
      simp only [eraseVal, Node.mk.injEq] at h
      obtain ⟨hk, _, _, _, hl, hr⟩ := h
      simp [toList, ihl l2 hl, ihr r2 hr, hk]

/-- The private `put` of a key the search finds, on a well-shaped subtree with
consistent counts: it returns the subtree with only that value replaced. -/
theorem putNode_present [LinearOrder K] (key : K) (val : V) (t : Node K V) :
    LLRB t → CountOK t → (getLoop key t).isSome = true →
    putNode t key val = .ok (setVal t key val) := by
  induction t with
  | null => intro _ _ h; simp [getLoop] at h
  | mk k v c color l r ihl ihr =>
    intro hs hc hfound
    have hs2 := LLRB_setVal _ key val hs
    obtain ⟨_, _, _, hsl, hsr⟩ := hs
    obtain ⟨hcount, hcl, hcr⟩ := hc
    by_cases h1 : key < k
    · have hsv : setVal (Node.mk k v c color l r) key val
          = Node.mk k v c color (setVal l key val) r := by
        rw [setVal, if_pos h1]
      have hf : (getLoop key l).isSome = true := by
        rw [getLoop, if_pos h1] at hfound
        exact hfound
      rw [hsv] at hs2 ⊢
      rw [putNode_lt _ _ _ _ _ _ _ _ h1, ihl hsl hcl hf]
      show fixUp (Node.mk k v c color (setVal l key val) r) = _
      exact fixUp_quiet _ _ _ _ _ _ hs2 (by rw [sizeNode_setVal]; exact hcount)
    · by_cases h2 : k < key
      · have hsv : setVal (Node.mk k v c color l r) key val
            = Node.mk k v c color l (setVal r key val) := by
          rw [setVal, if_neg h1, if_pos h2]
        have hf : (getLoop key r).isSome = true := by
          rw [getLoop, if_neg h1, if_pos h2] at hfound
          exact hfound
        rw [hsv] at hs2 ⊢
        rw [putNode_gt _ _ _ _ _ _ _ _ h2, ihr hsr hcr hf]
        show fixUp (Node.mk k v c color l (setVal r key val)) = _
        exact fixUp_quiet _ _ _ _ _ _ hs2 (by rw [sizeNode_setVal]; exact hcount)
      · have hsv : setVal (Node.mk k v c color l r) key val = Node.mk k val c color l r := by
          rw [setVal, if_neg h1, if_neg h2]
        rw [hsv] at hs2 ⊢
        rw [putNode_eq _ _ _ _ _ _ _ _ h1 h2]
        exact fixUp_quiet _ _ _ _ _ _ hs2 hcount

theorem fixUp_quiet_of_mem (t : Node K V) (hs : LLRB t) (hc : CountOK t) :
    ∀ n ∈ subtrees t, fixUp n = .ok n := by
  intro n hn
  have h1 := LLRB_of_mem_subtrees t hs n hn
  have h2 := CountOK_of_mem_subtrees t hc n hn
  cases n with
  | null =>
    exfalso
    clear h1 h2
    induction t with
    | null => simp [subtrees] at hn
    | mk k v c color l r ihl ihr =>
      simp only [subtrees, List.mem_cons, List.mem_append] at hn
      rcases hn with hn | hn | hn
      · cases hn
      · exact ihl hs.2.2.2.1 hc.2.1 hn
      · exact ihr hs.2.2.2.2 hc.2.2 hn
  | mk k v c color l r => exact fixUp_quiet k v c color l r h1 h2.1

end RedBlackTree

namespace red_black_tree
open RedBlackTree
variable {K V : Type}

/-- C19: on a tree reached from the empty tree by `put` calls, one of which
used the key `k`, `put(k, v)` returns the tree with only the value at the node
of `k` replaced: shape, keys, colours and counts of all nodes are as before,
`keys()` and `size()` are as before, `get` of every other key is as before and
`get(k)` is `v`; the fix-up block finds every node of the result in order, so
no rotation or colour flip has taken place. -/
theorem C19_overwrite_changes_only_value [LinearOrder K] (ops1 ops2 : List (K × V))
    (k : K) (v0 v : V) :
    ∃ t0 t1 : red_black_tree K V, putAll (ops1 ++ (k, v0) :: ops2) = .ok t0 ∧
      t0.put k v = .ok t1 ∧
      t1.root = setVal t0.root k v ∧
      eraseVal t1.root = eraseVal t0.root ∧
      t1.keys = t0.keys ∧ t1.size = t0.size ∧
      (∀ k1, k1 ≠ k → t1.get k1 = t0.get k1) ∧
      t1.get k = some v ∧
      (∀ n ∈ subtrees t1.root, fixUp n = .ok n) := by
  obtain ⟨t0, ht0, hg0, hl0⟩ := putAll_spec (ops1 ++ (k, v0) :: ops2)
  obtain ⟨t1, ht1, hg1, _, hl1⟩ := put_spec t0 k v hg0
  have hmem : k ∈ t0.keys :=
    keys_mem_of_mem _ t0 hl0 (k, v0) (by simp)
  have hfound : (getLoop k t0.root).isSome = true := by
    have := good_get t0 hg0 k
    simp only [get] at this
    rw [this, assocGet_isSome, ← keys_eq]
    exact hmem
  have hput := putNode_present k v t0.root hg0.2.1 hg0.2.2.2 hfound
  have hroot : t1.root = setVal t0.root k v := by
    have hred : isRed (setVal t0.root k v) = false := by rw [isRed_setVal]; exact hg0.1
    simp only [put, hput, bind, Except.bind] at ht1
    cases hsv : setVal t0.root k v with
    | null => rw [hsv] at ht1; cases ht1
    | mk rk rv rc rcolor rl rr =>
      rw [hsv] at ht1 hred
      have hcol : rcolor = Color.BLACK := by
        cases rcolor with
        | RED => simp [isRed, Node.isRed] at hred
        | BLACK => rfl
      simp only [pure, Except.pure, Except.ok.injEq] at ht1
      rw [← ht1, hcol]
  have herase : eraseVal t1.root = eraseVal t0.root := by
    rw [hroot, eraseVal_setVal]
  refine ⟨t0, t1, ht0, ht1, hroot, herase, ?_, ?_, ?_, ?_, ?_⟩
  · rw [keys_eq, keys_eq]
    exact keys_eq_of_eraseVal _ _ herase
  · simp only [size, hroot, sizeNode_setVal]
  · intro k1 hk1
    rw [good_get t1 hg1, good_get t0 hg0, hl1, assocGet_upsert, if_neg hk1]
  · rw [good_get t1 hg1, hl1, assocGet_upsert, if_pos rfl]
  · exact fixUp_quiet_of_mem t1.root hg1.2.1 hg1.2.2.2

end red_black_tree

/-! ## The rotations undo each other -/

namespace RedBlackTree
variable {K V : Type}

/-- C21: on a node `h` with a red right child, where the count of `h` and the
count of that child are each one more than the counts of their children,
`rotateLeft` and then `rotateRight` both return and give back `h` itself
(structure, keys, values, colours and counts); and on a node `h` with a red
left child and counts consistent in the same way, `rotateRight` and then
`rotateLeft` both return and give back `h` itself. -/
theorem C21_rotations_mutually_inverse (hk : K) (hv : V) (hcolor : Color) (xk : K) (xv : V)
    (a b c : Node K V) (hc xc hc2 xc2 : Int)
    (hx : xc = 1 + sizeNode b + sizeNode c) (hh : hc = 1 + sizeNode a + xc)
    (hx2 : xc2 = 1 + sizeNode a + sizeNode b) (hh2 : hc2 = 1 + xc2 + sizeNode c) :
    (∃ n, rotateLeft (Node.mk hk hv hc hcolor a (Node.mk xk xv xc Color.RED b c)) = .ok n ∧
      rotateRight n = .ok (Node.mk hk hv hc hcolor a (Node.mk xk xv xc Color.RED b c))) ∧
    (∃ n, rotateRight (Node.mk hk hv hc2 hcolor (Node.mk xk xv xc2 Color.RED a b) c) = .ok n ∧
      rotateLeft n = .ok (Node.mk hk hv hc2 hcolor (Node.mk xk xv xc2 Color.RED a b) c)) := by
  subst hx hh hx2 hh2
  exact ⟨⟨_, rfl, rfl⟩, ⟨_, rfl, rfl⟩⟩

/-- C21 at the black node with key 2 and count 2 whose only child is the red
leaf with key 3 and count 1: on the right for the first direction, on the left
for the second. -/
theorem C21_rotations_mutually_inverse_witness :
    ((1 : Int) = 1 + sizeNode (Node.null : Node Int Int) + sizeNode (Node.null : Node Int Int)) ∧
    ((2 : Int) = 1 + sizeNode (Node.null : Node Int Int) + 1) ∧
    ((∃ n, rotateLeft (Node.mk (2 : Int) (20 : Int) 2 Color.BLACK Node.null
          (Node.mk 3 30 1 Color.RED Node.null Node.null)) = .ok n ∧
        rotateRight n = .ok (Node.mk 2 20 2 Color.BLACK Node.null
          (Node.mk 3 30 1 Color.RED Node.null Node.null))) ∧
      (∃ n, rotateRight (Node.mk (2 : Int) (20 : Int) 2 Color.BLACK
          (Node.mk 3 30 1 Color.RED Node.null Node.null) Node.null) = .ok n ∧
        rotateLeft n = .ok (Node.mk 2 20 2 Color.BLACK
          (Node.mk 3 30 1 Color.RED Node.null Node.null) Node.null))) :=
  ⟨by decide, by decide,
    C21_rotations_mutually_inverse (2 : Int) (20 : Int) Color.BLACK 3 30
      Node.null Node.null Node.null 2 1 2 1 (by decide) (by decide) (by decide) (by decide)⟩

end RedBlackTree
